import Mathlib

/-!
Shallow embedding, in Lean 4, of the URL-canonicalization, relevance-scoring,
frontier-crawling, dedup-gating and job-tracking core of the Automated-Funding
repository (`src/utils/tools.py`, `src/api/routes/scrape.py`, `src/api/jobs.py`,
`src/api/schemas.py`).

Modelling conventions:
* Python strings are modelled as `List Char` (`Str`); `pyStr` injects Lean
  string literals.
* `urllib.parse.urlsplit` / `urlparse` are modelled after CPython 3.11
  (leading C0-control/space stripping, tab/CR/LF removal, scheme detection,
  netloc extraction, fragment-before-query splitting, `;params` splitting on
  the last path segment).  The `ValueError` branches for unbalanced IPv6
  brackets and the NFKC netloc check are not modelled: the parser is total
  here.  `str.lower` is modelled as ASCII lowering (`Char.toLower`), which
  agrees with Python on every ASCII string.
* Network fetching, HTML parsing and URL resolution (`urljoin`) are external
  collaborators; they enter the model as function parameters (`web`,
  `resolve`).  File-system artifact writing, wall-clock timestamps and
  logging are not modelled (no claim depends on them).
* Python `while` loops are modelled by fuel-indexed recursion; the proved
  invariants hold for every amount of fuel, hence at every point of any
  terminating run.
-/

set_option linter.unusedVariables false

/-- Python strings as lists of characters. -/
abbrev Str := List Char

/-- Inject a Lean string literal into the model of Python strings. -/
def pyStr (s : String) : Str := s.data

/-- Split a list at the first occurrence of `c`: Python `s.split(c, 1)` when
`c` occurs, `none` otherwise. -/
def breakAtChar (c : Char) : Str → Option (Str × Str)
  | [] => none
  | x :: xs =>
    if x = c then some ([], xs)
    else
      match breakAtChar c xs with
      | some (a, b) => some (x :: a, b)
      | none => none

/-- Python `s.startswith(pat)`. -/
def pyStartsWith (pat s : Str) : Bool :=
  match pat, s with
  | [], _ => true
  | _ :: _, [] => false
  | p :: ps, x :: xs => p = x && pyStartsWith ps xs

/-- Python `s.endswith(pat)`. -/
def pyEndsWith (pat s : Str) : Bool := pyStartsWith pat.reverse s.reverse

/-- Python substring containment `pat in s`. -/
def containsSub (pat s : Str) : Bool :=
  pyStartsWith pat s ||
    match s with
    | [] => false
    | _ :: xs => containsSub pat xs

/-- Python `s.replace(pat, "")` for a non-empty `pat`: removes the leftmost
occurrences one after the other, scanning the original string left to right
without rescanning the output. -/
def pyReplace (pat : Str) (s : Str) : Str :=
  match s with
  | [] => []
  | x :: xs =>
    if h : pat ≠ [] ∧ pyStartsWith pat (x :: xs) = true then
      pyReplace pat ((x :: xs).drop pat.length)
    else
      x :: pyReplace pat xs
termination_by s.length
decreasing_by
  · have hgen : ∀ (p t : Str), pyStartsWith p t = true → p.length ≤ t.length := by
      intro p
      induction p with
      | nil => intro t _; simp
      | cons a as ih =>
        intro t ht
        cases t with
        | nil => simp [pyStartsWith] at ht
        | cons b bs =>
          simp only [pyStartsWith, Bool.and_eq_true] at ht
          simpa using Nat.succ_le_succ (ih bs ht.2)
    have hle := hgen pat (x :: xs) h.2
    have hpos : 0 < pat.length := by
      cases hpat : pat with
      | nil => exact absurd hpat h.1
      | cons _ _ => simp
    simp only [List.length_drop, List.length_cons] at *
    omega
  · simp

/-- Python `str.lower`, restricted to its ASCII behaviour. -/
def pyLower (s : Str) : Str := s.map Char.toLower

/-- Python `s.rstrip(c)` for a single character. -/
def pyRstrip (c : Char) (s : Str) : Str := (s.reverse.dropWhile (fun x => x = c)).reverse

/-- ASCII approximation of Python `str.strip()` (whitespace on both ends). -/
def isPyWhitespace (c : Char) : Bool :=
  c = ' ' || c = '\t' || c = '\n' || c = '\r' || c = '\x0b' || c = '\x0c'

/-- Python `s.strip()`. -/
def pyStrip (s : Str) : Str :=
  ((s.dropWhile isPyWhitespace).reverse.dropWhile isPyWhitespace).reverse

/-- The suffix of `p` after its last `'/'` (all of `p` when `p` has no slash);
models `p[p.rfind('/') + 1:]`. -/
def afterLastSlash (p : Str) : Str := (p.reverse.takeWhile (fun x => x ≠ '/')).reverse

/-- The prefix of `p` up to and including its last `'/'` (empty when `p` has
no slash). -/
def uptoLastSlash (p : Str) : Str := (p.reverse.dropWhile (fun x => x ≠ '/')).reverse

/-! ### The CPython `urllib.parse` model -/

/-- Characters stripped from the front of a URL by CPython's `urlsplit`
(`_WHATWG_C0_CONTROL_OR_SPACE`). -/
def isC0OrSpace (c : Char) : Bool := c.toNat ≤ 32

/-- Characters removed everywhere by CPython's `urlsplit`
(`_UNSAFE_URL_BYTES_TO_REMOVE`: tab, CR, LF). -/
def isUnsafeUrlByte (c : Char) : Bool := c = '\t' || c = '\r' || c = '\n'

/-- The sanitation CPython's `urlsplit` applies before parsing. -/
def sanitizeUrl (s : Str) : Str :=
  (s.dropWhile isC0OrSpace).filter (fun c => !isUnsafeUrlByte c)

/-- CPython `scheme_chars`: ASCII letters, digits, `'+'`, `'-'`, `'.'`. -/
def schemeChar (c : Char) : Bool := c.isAlphanum || c = '+' || c = '-' || c = '.'

/-- A valid scheme prefix: non-empty, starts with an ASCII letter, and every
character is a scheme character (CPython's check before splitting at `':'`). -/
def validScheme : Str → Bool
  | [] => false
  | c :: cs => c.isAlpha && (c :: cs).all schemeChar

/-- Characters terminating the netloc (`_splitnetloc` delimiters). -/
def netlocDelim (c : Char) : Bool := c = '/' || c = '?' || c = '#'

/-- Result of `urlsplit` (fragment handling included; `allow_fragments=True`). -/
structure SplitResult where
  scheme : Str
  netloc : Str
  pathRaw : Str
  query : Str
  fragment : Str
deriving DecidableEq, Repr

/-- Scheme detection: split at the first `':'` when the part before it is a
valid (lower-cased) scheme. -/
def splitScheme (url : Str) : Str × Str :=
  match breakAtChar ':' url with
  | some (pre, post) => if validScheme pre then (pyLower pre, post) else ([], url)
  | none => ([], url)

/-- Netloc extraction (`_splitnetloc` after the `url[:2] == '//'` test). -/
def splitNetloc (rest : Str) : Str × Str :=
  if pyStartsWith (pyStr "//") rest then
    let r := rest.drop 2
    (r.takeWhile (fun c => !netlocDelim c), r.dropWhile (fun c => !netlocDelim c))
  else ([], rest)

/-- `url.split('#', 1)` when a fragment is present. -/
def splitFragment (rest : Str) : Str × Str :=
  match breakAtChar '#' rest with
  | some (a, b) => (a, b)
  | none => (rest, [])

/-- `url.split('?', 1)` when a query is present. -/
def splitQuery (rest : Str) : Str × Str :=
  match breakAtChar '?' rest with
  | some (a, b) => (a, b)
  | none => (rest, [])

/-- CPython 3.11 `urllib.parse.urlsplit` (total model; the IPv6-bracket and
NFKC `ValueError` branches are not modelled). -/
def urlsplit (url0 : Str) : SplitResult :=
  let url := sanitizeUrl url0
  let sr := splitScheme url
  let nr := splitNetloc sr.2
  let fr := splitFragment nr.2
  let qr := splitQuery fr.1
  ⟨sr.1, nr.1, qr.1, qr.2, fr.2⟩

/-- CPython `_splitparams`: split `;params` off the last path segment. -/
def pySplitparams (p : Str) : Str × Str :=
  if p.contains '/' then
    match breakAtChar ';' (afterLastSlash p) with
    | some (a, b) => (uptoLastSlash p ++ a, b)
    | none => (p, [])
  else
    match breakAtChar ';' p with
    | some (a, b) => (a, b)
    | none => (p, [])

/-- Result of `urlparse` (params split off the path). -/
structure ParseResult where
  scheme : Str
  netloc : Str
  path : Str
  params : Str
  query : Str
  fragment : Str
deriving DecidableEq, Repr

/-- CPython `urllib.parse.urlparse`. -/
def urlparse (url : Str) : ParseResult :=
  let s := urlsplit url
  let pp : Str × Str := if s.pathRaw.contains ';' then pySplitparams s.pathRaw else (s.pathRaw, [])
  ⟨s.scheme, s.netloc, pp.1, pp.2, s.query, s.fragment⟩

/-! ### The repository's canonicalizers (`src/utils/tools.py`) -/

/-- `normalize_url` (tools.py:106): "simple normalization for deduplication
within one domain" — default scheme `https`, path stripped of trailing
slashes, query kept when non-empty, fragment dropped. -/
def normalize_url (url : Str) : Str :=
  let parsed := urlparse url
  let scheme := if parsed.scheme = [] then pyStr "https" else parsed.scheme
  let qs := if parsed.query = [] then ([] : Str) else '?' :: parsed.query
  scheme ++ pyStr "://" ++ parsed.netloc ++ pyRstrip '/' parsed.path ++ qs

/-- The first match of the regex `(/charity-details/\d+)` in `p`
(`re.search`, leftmost match, greedy `\d+`), or `none`. -/
def charityDetailsMatch : Str → Option Str
  | [] => none
  | x :: xs =>
    let pat := pyStr "/charity-details/"
    if pyStartsWith pat (x :: xs) then
      let ds := ((x :: xs).drop pat.length).takeWhile Char.isDigit
      if ds ≠ [] then some (pat ++ ds) else charityDetailsMatch xs
    else charityDetailsMatch xs

/-- `initial_normalize_url` (tools.py:116): derives the base link ("scope
root") that restricts crawling, with the Charity Commission special case. -/
def initial_normalize_url (url0 : Str) : Str :=
  let url := pyStrip url0
  if url = [] then url
  else
    let parsed := urlparse url
    let scheme := if parsed.scheme = [] then pyStr "https" else parsed.scheme
    let netloc := pyReplace (pyStr "www.") (pyLower parsed.netloc)
    let path0 := if parsed.path = [] then pyStr "/" else parsed.path
    let path1 := pyRstrip '/' path0
    let path :=
      if containsSub (pyStr "charitycommission.gov.uk") netloc &&
          containsSub (pyStr "/charity-details/") path1 then
        match charityDetailsMatch path1 with
        | some m => pyStr "/en/charity-search/-" ++ m
        | none => path1
      else path1
    scheme ++ pyStr "://" ++ netloc ++ path

/-- `canon_funder_url` (tools.py:447): the strict cross-batch canonical key —
full normalized URL for Charity Commission register URLs, bare
`https://domain` otherwise.  (The `except` fallback is unreachable in this
total model of `urlparse`.) -/
def canon_funder_url (url : Str) : Str :=
  if url = [] then []
  else
    let u := normalize_url url
    let parts := urlparse u
    let domain := pyReplace (pyStr "www.") (pyLower parts.netloc)
    if pyStartsWith (pyStr "register-of-charities.charitycommission") domain then
      pyRstrip '/' u
    else
      pyStr "https://" ++ domain

/-! ### Constants (`src/utils/constants.py`) -/

def DISCOVERY_DEPTH : Nat := 2
def MAX_PAGES : Nat := 15
def MAX_DISCOVERY_PAGES : Nat := 100

/-- The fixed keyword list used by the relevance scorer. -/
def KEYWORDS : List Str :=
  [pyStr "grant", pyStr "grants", pyStr "apply", pyStr "fund", pyStr "funding",
   pyStr "eligible", pyStr "eligibility", pyStr "criteria", pyStr "who-can-apply",
   pyStr "what-we-fund", pyStr "apply-for", pyStr "apply-for-funding",
   pyStr "support", pyStr "programme", pyStr "award", pyStr "awarded",
   pyStr "application", pyStr "guidelines"]

/-! ### Relevance scorer (`score_candidate`, tools.py:253) -/

/-- Aggregated metadata of a candidate link.  Python keeps these as sets;
here they are duplicate-free insertion-ordered lists (only membership and
count matter to the scorer). -/
structure LinkMeta where
  anchor_texts : List Str
  source_titles : List Str
  source_snippets : List Str
deriving DecidableEq

def emptyMeta : LinkMeta := ⟨[], [], []⟩

/-- Whether some keyword occurs in the lowered text (`any(kw in a.lower() ...)`). -/
def hasKeyword (a : Str) : Bool := KEYWORDS.any (fun kw => containsSub kw (pyLower a))

/-- Number of keywords occurring in the lowered URL (each adds 50). -/
def urlKeywordCount (url : Str) : Nat :=
  (KEYWORDS.filter (fun kw => containsSub kw (pyLower url))).length

/-- `len(urlparse(url).path.strip("/").split("/"))`: one more than the number
of slashes left after stripping both ends. -/
def pathSegmentCount (url : Str) : Nat :=
  let stripped :=
    (((urlparse url).path.dropWhile (fun c => c = '/')).reverse.dropWhile
        (fun c => c = '/')).reverse
  (stripped.filter (fun c => c = '/')).length + 1

/-- `score_candidate` (tools.py:253).  The Python score is an `int` until the
final length bonus makes it a float; it is modelled exactly as a rational. -/
def score_candidate (url : Str) (meta : LinkMeta) : ℚ :=
  let s1 : ℚ := 50 * (urlKeywordCount url : ℚ)
  let s2 : ℚ := 25 * ((meta.anchor_texts.filter hasKeyword).length : ℚ)
  let s3 : ℚ := 10 * ((meta.source_titles.filter hasKeyword).length : ℚ)
  let s4 : ℚ := 7 * ((meta.source_snippets.filter hasKeyword).length : ℚ)
  let depth_penalty : ℤ := (pathSegmentCount url : ℤ) - 3
  let s5 : ℚ := (max 0 depth_penalty : ℤ) * 3
  let s6 : ℚ := max 0 (10 - (url.length : ℚ) / 50)
  s1 + s2 + s3 + s4 - s5 + s6

/-! ### Frontier crawler (`discover_links`, tools.py:192)

The network and the HTML parser are external collaborators: a crawl is run
against an abstract `web : Str → Option PageInfo` (`none` models a fetch
failure) and an abstract `resolve : Str → Str → Str` modelling
`urljoin(base, href)`. -/

/-- What the HTML parser extracts from one fetched page: its (stripped)
title, the text of its first paragraph, and all anchors as
(href, anchor-text) pairs. -/
structure PageInfo where
  title : Str
  firstParagraph : Str
  anchors : List (Str × Str)
deriving DecidableEq

/-- Non-text asset suffixes discarded during discovery. -/
def assetSuffixes : List Str :=
  [pyStr ".pdf", pyStr ".jpg", pyStr ".jpeg", pyStr ".png", pyStr ".zip",
   pyStr ".mp4", pyStr ".doc", pyStr ".docx"]

/-- Fixed context of one discovery run. -/
structure CrawlCtx where
  web : Str → Option PageInfo
  resolve : Str → Str → Str
  base_domain : Str
  seed_base : Str
  discovery_depth : Nat
  max_pages : Nat

/-- Mutable state of the discovery loop.  `visitedAt` is the code's `visited`
set, recorded together with the depth at which each page was processed (the
url component is what membership tests use); `pages_visited` is the counter;
`candidates` is the insertion-ordered candidate map. -/
structure DiscoverState where
  queue : List (Str × Nat)
  visitedAt : List (Str × Nat)
  pages_visited : Nat
  candidates : List (Str × LinkMeta)
deriving DecidableEq

/-- Set-semantics insertion used for `set.add` on metadata components. -/
def addToSet (x : Str) (l : List Str) : List Str := if x ∈ l then l else l ++ [x]

/-- `candidates.setdefault(key, empty)` on the insertion-ordered map. -/
def setdefaultMeta (cands : List (Str × LinkMeta)) (key : Str) : List (Str × LinkMeta) :=
  if key ∈ cands.map Prod.fst then cands else cands ++ [(key, emptyMeta)]

/-- Merge anchor text, source title and source snippet into a candidate's
metadata (Python `meta["..."].add(...)` guarded by truthiness). -/
def mergeMeta (anchor title snippet : Str) (m : LinkMeta) : LinkMeta :=
  { anchor_texts := if anchor ≠ [] then addToSet anchor m.anchor_texts else m.anchor_texts
    source_titles := if title ≠ [] then addToSet title m.source_titles else m.source_titles
    source_snippets := if snippet ≠ [] then addToSet snippet m.source_snippets else m.source_snippets }

/-- Update the candidate map at `key` (setdefault followed by merges). -/
def upsertCandidate (cands : List (Str × LinkMeta)) (key anchor title snippet : Str) :
    List (Str × LinkMeta) :=
  (setdefaultMeta cands key).map
    (fun p => if p.1 = key then (p.1, mergeMeta anchor title snippet p.2) else p)

/-- Process one `<a href=...>` anchor of the page at `url` / `depth`
(the body of the `for a in soup.find_all("a", href=True)` loop). -/
def processAnchor (ctx : CrawlCtx) (url : Str) (depth : Nat) (title snippet : Str)
    (st : DiscoverState) (a : Str × Str) : DiscoverState :=
  let href0 := ((breakAtChar '#' a.1).map Prod.fst).getD a.1
  let href := ctx.resolve url href0
  if !pyStartsWith (pyStr "http") href then st
  else if !containsSub ctx.base_domain (urlparse href).netloc then st
  else if assetSuffixes.any (fun ext => pyEndsWith ext (pyLower href)) then st
  else if containsSub (pyStr "charitycommission.gov.uk") ctx.base_domain &&
      !pyStartsWith ctx.seed_base href then st
  else
    let hnorm := normalize_url href
    let anchor := pyStrip a.2
    let cands := upsertCandidate st.candidates hnorm anchor title snippet
    let queue :=
      if hnorm ∉ st.visitedAt.map Prod.fst ∧ depth + 1 ≤ ctx.discovery_depth then
        st.queue ++ [(hnorm, depth + 1)]
      else st.queue
    { st with candidates := cands, queue := queue }

/-- Process one fetched page: truncate the snippet to 300 characters and run
the anchor loop. -/
def processPage (ctx : CrawlCtx) (url : Str) (depth : Nat) (pg : PageInfo)
    (st : DiscoverState) : DiscoverState :=
  let title := pg.title
  let snippet := pg.firstParagraph.take 300
  pg.anchors.foldl (processAnchor ctx url depth title snippet) st

/-- The `while queue:` loop of `discover_links`, fuel-indexed.  Each
iteration pops the front of the queue, skips it if already visited, too deep
or over the page budget, and otherwise visits it. -/
def discoverLoop (ctx : CrawlCtx) : Nat → DiscoverState → DiscoverState
  | 0, st => st
  | fuel + 1, st =>
    match st.queue with
    | [] => st
    | (url, depth) :: rest =>
      if url ∈ st.visitedAt.map Prod.fst ∨ depth > ctx.discovery_depth ∨
          st.pages_visited ≥ ctx.max_pages then
        discoverLoop ctx fuel { st with queue := rest }
      else
        let st1 : DiscoverState :=
          { st with
            queue := rest
            visitedAt := st.visitedAt ++ [(url, depth)]
            pages_visited := st.pages_visited + 1 }
        match ctx.web url with
        | none => discoverLoop ctx fuel st1
        | some pg => discoverLoop ctx fuel (processPage ctx url depth pg st1)

/-- `discover_links` (tools.py:192): breadth-first discovery from the seed,
bounded by depth and page budget.  The whole loop state is returned so the
run's visit record can be inspected; the code returns `candidates`. -/
def discover_links (web : Str → Option PageInfo) (resolve : Str → Str → Str)
    (seed_url : Str) (discovery_depth : Nat) (max_pages : Nat) (fuel : Nat) :
    DiscoverState :=
  let seed_base := initial_normalize_url seed_url
  let seed_norm := normalize_url seed_url
  let base_domain := pyReplace (pyStr "www.") (urlparse seed_norm).netloc
  let ctx : CrawlCtx := ⟨web, resolve, base_domain, seed_base, discovery_depth, max_pages⟩
  discoverLoop ctx fuel ⟨[(seed_norm, 0)], [], 0, []⟩

/-! ### Prioritized fetcher (`prioritized_crawl`, tools.py:274) -/

/-- Python `<` on `(score, url)` tuples (lexicographic, strings compared by
code points). -/
def strLtB : Str → Str → Bool
  | [], [] => false
  | [], _ :: _ => true
  | _ :: _, [] => false
  | a :: as', b :: bs' => if a < b then true else if a = b then strLtB as' bs' else false

def tupLtB (a b : ℚ × Str) : Bool :=
  if a.1 < b.1 then true else if a.1 = b.1 then strLtB a.2 b.2 else false

/-- The ordering realized by `scored.sort(reverse=True)`: a stable sort that
puts `a` before `b` whenever `¬(a < b)` on Python tuples. -/
def tupGeB (a b : ℚ × Str) : Bool := !tupLtB a b

/-- Score every candidate (the `scored = [...]` comprehension). -/
def scoredOf (cands : List (Str × LinkMeta)) : List (ℚ × Str) :=
  cands.map (fun p => (score_candidate p.1 p.2, p.1))

/-- `scored.sort(reverse=True)`: stable descending sort on (score, url). -/
def pySortDesc (l : List (ℚ × Str)) : List (ℚ × Str) := l.mergeSort tupGeB

/-- The ranked selection `[url for _, url in scored[:MAX_PAGES]]` after
force-including the seed. -/
def topLinks (cands : List (Str × LinkMeta)) : List Str :=
  ((pySortDesc (scoredOf cands)).take MAX_PAGES).map Prod.snd

/-- Result of `prioritized_crawl`: combined per-page texts, the number of
pages whose text was actually fetched, and the ordered list of attempted
URLs.  Per-page artifact files are not modelled. -/
structure CrawlOutcome where
  texts : List Str
  pages_scraped : Nat
  visited_urls : List Str
deriving DecidableEq

/-- `prioritized_crawl` (tools.py:274).  The page text actually fetched for a
top link is the visible text of the page the abstract web returns
(`extract_visible_text ∘ fetch_page`); a `none` fetch contributes nothing. -/
def prioritized_crawl (web : Str → Option PageInfo) (text : Str → Option Str)
    (resolve : Str → Str → Str) (seed_url : Str) (fuel : Nat) : CrawlOutcome :=
  let seed_norm := normalize_url seed_url
  let cands :=
    (discover_links web resolve seed_url DISCOVERY_DEPTH MAX_DISCOVERY_PAGES fuel).candidates
  let cands := setdefaultMeta cands seed_norm
  let top := topLinks cands
  let texts := top.filterMap text
  ⟨texts, texts.length, top⟩

/-! ### Dedup gate (`_prepare_urls_for_scrape`, scrape.py:22) -/

structure PrepareResult where
  to_scrape : List Str
  already_processed : List Str
  duplicates_in_payload : List Str
  normalized_map : List (Str × Str)
deriving DecidableEq

/-- One iteration of the `for raw in raw_urls:` loop; the second component of
the accumulator is the `seen_normalized` set (insertion-ordered). -/
def prepareStep (processed allowNorm : List Str) (acc : PrepareResult × List Str)
    (raw : Str) : PrepareResult × List Str :=
  let res := acc.1
  let seen := acc.2
  let normalized := normalize_url raw
  let res := { res with normalized_map := res.normalized_map ++ [(raw, normalized)] }
  if normalized ∈ seen then
    ({ res with duplicates_in_payload := res.duplicates_in_payload ++ [raw] }, seen)
  else
    let seen := seen ++ [normalized]
    if normalized ∈ processed ∧ normalized ∉ allowNorm then
      ({ res with already_processed := res.already_processed ++ [raw] }, seen)
    else
      ({ res with to_scrape := res.to_scrape ++ [normalized] }, seen)

/-- `_prepare_urls_for_scrape` (scrape.py:22): partition a raw batch against
the externally supplied processed-key set, honouring the rescrape allowance.
`processed` stands for `get_already_processed_urls()` (already normalized
keys); the allowance is normalized on entry exactly as in the code. -/
def _prepare_urls_for_scrape (raw_urls : List Str) (processed : List Str)
    (allow_rescrape : List Str) : PrepareResult :=
  (raw_urls.foldl (prepareStep processed (allow_rescrape.map normalize_url))
    (⟨[], [], [], []⟩, [])).1

/-! ### Single-fund pipeline (`process_single_fund`, tools.py:617) -/

/-- The fields of the per-fund result record that the claims touch. -/
structure FundRecord where
  fund_url : Str
  fund_name : Str
  error : Str
  eligibility : Str
  pages_scraped : Nat
  visited_urls_count : Nat
deriving DecidableEq

/-- What the LLM extraction stage contributes (`call_llm_extract` is total:
every failure is mapped to a default record inside it). -/
structure LlmData where
  eligibility : Str
deriving DecidableEq

/-- Outcome of one `process_single_fund` call: the returned record plus the
list of records whose append to the external sheet was attempted (the
`finally:` block). -/
structure FundOutcome where
  record : FundRecord
  sheet_appends : List FundRecord
deriving DecidableEq

/-- `process_single_fund` (tools.py:617).  The crawl stage
(`prioritized_crawl` together with everything it raises) is abstracted as
`crawl`: `.ok (text, pages_scraped, visited_urls)` models a normal return and
`.error msg` models an exception caught by the `except` branch.  In every
branch the `finally:` block attempts exactly one append of the result record
to the Google Sheet (failures of the append itself are swallowed there). -/
def process_single_fund (crawl : Except Str (Str × Nat × List Str))
    (llm : Str → LlmData) (url : Str) (fund_name : Option Str) : FundOutcome :=
  let name := fund_name.getD (urlparse url).netloc
  let base : FundRecord := ⟨url, name, [], [], 0, 0⟩
  let record :=
    match crawl with
    | .error msg => { base with error := msg }
    | .ok (text, pages_scraped, visited_urls) =>
      if text = [] ∨ text.length < 100 then
        { base with error := pyStr "Insufficient text extracted" }
      else
        { base with
          eligibility := (llm text).eligibility
          pages_scraped := pages_scraped
          visited_urls_count := visited_urls.length
          error := [] }
  ⟨record, [record]⟩

/-! ### Background worker and job tracker (`start_background_scrape`,
tools.py:664; `Job.snapshot`, jobs.py:19) -/

/-- The observable fields of a `ScrapeProgress` record (timing fields are
wall-clock data and are not modelled). -/
structure JobState where
  done : Bool
  progress_percent : Nat
  results : List FundRecord
  errors : List (Str × Str)
deriving DecidableEq

/-- `int(idx / total * 100)`.  CPython computes this through binary floating
point, which for some `idx / total` truncates one lower than exact rational
arithmetic (e.g. `int(29 / 100 * 100) == 28`); the model uses exact floor
division, which agrees at `idx = 0` and `idx = total` and is monotone exactly
as the float computation is.  No claim depends on intermediate values. -/
def pyPercent (idx total : Nat) : Nat := idx * 100 / total

/-- The worker loop of `start_background_scrape`, emitting every observable
intermediate state: after each URL the worker first appends the result (and
the error pair when the record carries an error), then writes the new
percentage; `done` is set by a separate final write.  `proc` abstracts
`process_single_fund` (which always returns a record). -/
def workerTrace (proc : Str → FundRecord) (total : Nat) :
    List Str → Nat → JobState → List JobState
  | [], _, st => [{ st with done := true }]
  | url :: rest, idx, st =>
    let res := proc url
    let st1 : JobState :=
      { st with
        results := st.results ++ [res]
        errors := st.errors ++ (if res.error ≠ [] then [(url, res.error)] else []) }
    let st2 : JobState := { st1 with progress_percent := pyPercent idx total }
    st1 :: st2 :: workerTrace proc total rest (idx + 1) st2

/-- `start_background_scrape` (tools.py:664) as the sequence of observable
progress states its worker thread produces, starting from the freshly created
`ScrapeProgress` (done=False, percent=0).  A concurrent status poll observes
exactly one element of this trace. -/
def start_background_scrape (proc : Str → FundRecord) (urls : List Str) : List JobState :=
  let total := max urls.length 1
  let init : JobState := ⟨false, 0, [], []⟩
  init :: workerTrace proc total urls 1 init

/-- The claim-relevant fields of `Job.snapshot` (jobs.py:19): `total_urls` is
the length of the job's url list and `completed_urls` the length of the
progress record's result list. -/
structure JobSnapshot where
  done : Bool
  progress_percent : Nat
  total_urls : Nat
  completed_urls : Nat
deriving DecidableEq

/-- `Job.snapshot` applied to a job holding `urls` while its progress record
is in state `st`. -/
def jobSnapshot (urls : List Str) (st : JobState) : JobSnapshot :=
  ⟨st.done, st.progress_percent, urls.length, st.results.length⟩

/-! ### Batch submission route (`scrape_batch`, scrape.py:95) -/

/-- `BatchScrapeRequest` (schemas.py): the model defines only `fund_urls` —
there is no `rescrape_urls` field. -/
structure BatchScrapeRequest where
  fund_urls : List Str
deriving DecidableEq

/-- Python exceptions the handler can raise. -/
inductive PyExc where
  | attributeError (attr : Str)
  | httpException (statusCode : Nat) (detail : Str)
deriving DecidableEq

/-- Attribute access `payload.rescrape_urls`: `BatchScrapeRequest` declares
no such field, so pydantic raises `AttributeError`. -/
def rescrapeUrlsAttr (_payload : BatchScrapeRequest) : Except PyExc (List Str) :=
  .error (.attributeError (pyStr "rescrape_urls"))

/-- The in-memory job store, as the list of url-lists of created jobs. -/
abbrev JobStoreState := List (List Str)

/-- `scrape_batch` (scrape.py:95).  Mirrors the handler statement by
statement: the guard `if not payload.fund_urls and not payload.rescrape_urls`
short-circuits, so `payload.rescrape_urls` is evaluated exactly when
`fund_urls` is empty; line 104 evaluates it unconditionally.  On success the
handler would create a job from the gate's `to_scrape` list. -/
def scrape_batch (payload : BatchScrapeRequest) (processed : List Str)
    (store : JobStoreState) : Except PyExc (List Str) × JobStoreState :=
  let guard1 : Except PyExc Bool :=
    if payload.fund_urls = [] then (rescrapeUrlsAttr payload).map (fun r => r = [])
    else .ok false
  match guard1 with
  | .error e => (.error e, store)
  | .ok true => (.error (.httpException 400 (pyStr "No URLs provided")), store)
  | .ok false =>
    match rescrapeUrlsAttr payload with
    | .error e => (.error e, store)
    | .ok rescrape_urls =>
      let raw_urls := payload.fund_urls ++ (if rescrape_urls ≠ [] then rescrape_urls else [])
      let prepared := _prepare_urls_for_scrape raw_urls processed rescrape_urls
      if prepared.to_scrape = [] then
        (.error (.httpException 400
          (pyStr "All provided URLs already exist in results or are duplicates.")), store)
      else
        (.ok prepared.to_scrape, store ++ [prepared.to_scrape])

/-! ## Infrastructure lemmas -/

/-- `Char.toLower` either fixes a character or maps an upper-case ASCII
letter to the letter 32 code points higher. -/
theorem charLower_spec (c : Char) :
    Char.toLower c = c ∨
      (65 ≤ c.toNat ∧ c.toNat ≤ 90 ∧ (Char.toLower c).toNat = c.toNat + 32) := by
  by_cases h : 65 ≤ c.toNat ∧ c.toNat ≤ 90
  · right
    obtain ⟨h1, h2⟩ := h
    refine ⟨h1, h2, ?_⟩
    have hc : Char.ofNat c.toNat = c := Char.ofNat_toNat c
    have henum : c.toNat = 65 ∨ c.toNat = 66 ∨ c.toNat = 67 ∨ c.toNat = 68 ∨ c.toNat = 69 ∨
        c.toNat = 70 ∨ c.toNat = 71 ∨ c.toNat = 72 ∨ c.toNat = 73 ∨ c.toNat = 74 ∨
        c.toNat = 75 ∨ c.toNat = 76 ∨ c.toNat = 77 ∨ c.toNat = 78 ∨ c.toNat = 79 ∨
        c.toNat = 80 ∨ c.toNat = 81 ∨ c.toNat = 82 ∨ c.toNat = 83 ∨ c.toNat = 84 ∨
        c.toNat = 85 ∨ c.toNat = 86 ∨ c.toNat = 87 ∨ c.toNat = 88 ∨ c.toNat = 89 ∨
        c.toNat = 90 := by omega
    rcases henum with h | h | h | h | h | h | h | h | h | h | h | h | h | h | h | h | h | h | h |
      h | h | h | h | h | h | h <;>
      (rw [← hc, h]; decide)
  · left
    unfold Char.toLower
    simp only [ge_iff_le]
    rw [if_neg]
    omega

theorem charLower_idem (c : Char) : Char.toLower (Char.toLower c) = Char.toLower c := by
  rcases charLower_spec c with h | ⟨h1, h2, h3⟩
  · simp [h]
  · rcases charLower_spec (Char.toLower c) with h' | ⟨h1', h2', _⟩
    · exact h'
    · omega

/-- The value of a character as a `Nat` determines it. -/
theorem char_eq_of_toNat_eq {c d : Char} (h : c.toNat = d.toNat) : c = d := by
  have hc := Char.ofNat_toNat c
  have hd := Char.ofNat_toNat d
  rw [← hc, ← hd, h]

theorem charLower_eq_of_not_upper {c : Char} (h : ¬(65 ≤ c.toNat ∧ c.toNat ≤ 90)) :
    Char.toLower c = c := by
  rcases charLower_spec c with h' | ⟨h1, h2, _⟩
  · exact h'
  · exact absurd ⟨h1, h2⟩ h

/-- ASCII letter ranges, stated over `Char.toNat`. -/
theorem char_isAlpha_iff (c : Char) :
    c.isAlpha = true ↔ (65 ≤ c.toNat ∧ c.toNat ≤ 90) ∨ (97 ≤ c.toNat ∧ c.toNat ≤ 122) := by
  simp only [Char.isAlpha, Char.isUpper, Char.isLower, Bool.or_eq_true, Bool.and_eq_true,
    decide_eq_true_eq]
  exact Iff.rfl

theorem char_isDigit_iff (c : Char) :
    c.isDigit = true ↔ 48 ≤ c.toNat ∧ c.toNat ≤ 57 := by
  simp only [Char.isDigit, Bool.and_eq_true, decide_eq_true_eq]
  exact Iff.rfl

theorem charLower_isAlpha {c : Char} (h : c.isAlpha = true) :
    (Char.toLower c).isAlpha = true := by
  rw [char_isAlpha_iff] at h ⊢
  rcases charLower_spec c with h' | ⟨h1, h2, h3⟩
  · rw [h']
    exact h
  · omega

theorem charLower_schemeChar {c : Char} (h : schemeChar c = true) :
    schemeChar (Char.toLower c) = true := by
  simp only [schemeChar, Char.isAlphanum, Bool.or_eq_true, Bool.and_eq_true,
    decide_eq_true_eq] at h ⊢
  rcases charLower_spec c with h' | ⟨h1, h2, h3⟩
  · rw [h']
    exact h
  · left; left; left
    rw [char_isAlpha_iff]
    omega

/-- Lowering a character in the upper-case range yields one in the
lower-case range; in particular the result is never one of the parser's
special characters. -/
theorem charLower_toNat_cases (c : Char) :
    Char.toLower c = c ∨ (97 ≤ (Char.toLower c).toNat ∧ (Char.toLower c).toNat ≤ 122) := by
  rcases charLower_spec c with h | ⟨h1, h2, h3⟩
  · exact Or.inl h
  · right
    omega

theorem pyLower_idem (s : Str) : pyLower (pyLower s) = pyLower s := by
  simp only [pyLower, List.map_map]
  exact List.map_congr_left (fun c _ => charLower_idem c)

/-- Characterization of `breakAtChar`: a successful split recovers the
decomposition at the first occurrence. -/
theorem breakAtChar_eq_some_iff {c : Char} {l a b : Str} :
    breakAtChar c l = some (a, b) ↔ l = a ++ c :: b ∧ c ∉ a := by
  induction l generalizing a b with
  | nil => simp [breakAtChar]
  | cons x xs ih =>
    simp only [breakAtChar]
    by_cases hx : x = c
    · subst hx
      simp only [if_pos rfl, Option.some.injEq, Prod.mk.injEq]
      constructor
      · rintro ⟨rfl, rfl⟩
        simp
      · rintro ⟨heq, hmem⟩
        cases a with
        | nil =>
          simp only [List.nil_append, List.cons.injEq, true_and] at heq
          simp [heq]
        | cons y ys =>
          simp only [List.cons_append, List.cons.injEq] at heq
          rw [heq.1] at hmem
          simp at hmem
    · rw [if_neg hx]
      cases hb : breakAtChar c xs with
      | none =>
        have hnotmem : ∀ a' b' : Str, xs ≠ a' ++ c :: b' ∨ c ∈ a' := by
          intro a' b'
          by_cases hmem : c ∈ a'
          · exact Or.inr hmem
          · left
            intro heq
            rw [ih.mpr ⟨heq, hmem⟩] at hb
            cases hb
        constructor
        · intro h
          cases h
        · rintro ⟨heq, hmem⟩
          cases a with
          | nil =>
            simp only [List.nil_append, List.cons.injEq] at heq
            exact absurd heq.1 hx
          | cons y ys =>
            simp only [List.cons_append, List.cons.injEq] at heq
            obtain ⟨rfl, heq2⟩ := heq
            simp only [List.mem_cons, not_or] at hmem
            rcases hnotmem ys b with hne | hc
            · exact absurd heq2 hne
            · exact absurd hc hmem.2
      | some p =>
        obtain ⟨a', b'⟩ := p
        have hxs := ih.mp hb
        constructor
        · intro h
          rw [Option.some.injEq, Prod.mk.injEq] at h
          obtain ⟨rfl, rfl⟩ := h
          refine ⟨by rw [hxs.1]; rfl, ?_⟩
          simp only [List.mem_cons, not_or]
          exact ⟨fun hc => hx hc.symm, hxs.2⟩
        · rintro ⟨heq, hmem⟩
          cases a with
          | nil =>
            simp only [List.nil_append, List.cons.injEq] at heq
            exact absurd heq.1 hx
          | cons y ys =>
            simp only [List.cons_append, List.cons.injEq] at heq
            obtain ⟨rfl, heq2⟩ := heq
            simp only [List.mem_cons, not_or] at hmem
            have h2 : breakAtChar c xs = some (ys, b) := ih.mpr ⟨heq2, hmem.2⟩
            rw [hb] at h2
            rw [Option.some.injEq, Prod.mk.injEq] at h2
            rw [Option.some.injEq, Prod.mk.injEq]
            exact ⟨by rw [h2.1], h2.2⟩

theorem breakAtChar_eq_none_iff {c : Char} {l : Str} :
    breakAtChar c l = none ↔ c ∉ l := by
  induction l with
  | nil => simp [breakAtChar]
  | cons x xs ih =>
    simp only [breakAtChar]
    by_cases hx : x = c
    · subst hx
      simp
    · rw [if_neg hx]
      cases hb : breakAtChar c xs with
      | none =>
        simp only [List.mem_cons, not_or, true_iff]
        exact ⟨fun h => hx h.symm, ih.mp hb⟩
      | some p =>
        constructor
        · intro h
          exact Option.noConfusion h
        · intro hmem
          have hxs : c ∉ xs := fun h => hmem (List.mem_cons_of_mem _ h)
          rw [ih.mpr hxs] at hb
          exact Option.noConfusion hb

theorem breakAtChar_append {c : Char} {a b : Str} (h : c ∉ a) :
    breakAtChar c (a ++ c :: b) = some (a, b) :=
  breakAtChar_eq_some_iff.mpr ⟨rfl, h⟩

/-- takeWhile over an append whose first block satisfies the predicate. -/
theorem takeWhile_append_all {p : Char → Bool} {A B : Str} (h : ∀ x ∈ A, p x = true) :
    (A ++ B).takeWhile p = A ++ B.takeWhile p := by
  induction A with
  | nil => simp
  | cons a as ih =>
    have ha : p a = true := h a (List.mem_cons_self a as)
    simp only [List.cons_append, List.takeWhile_cons, ha, if_true]
    rw [ih (fun x hx => h x (List.mem_cons_of_mem _ hx))]

/-- dropWhile over an append whose first block satisfies the predicate. -/
theorem dropWhile_append_all {p : Char → Bool} {A B : Str} (h : ∀ x ∈ A, p x = true) :
    (A ++ B).dropWhile p = B.dropWhile p := by
  induction A with
  | nil => simp
  | cons a as ih =>
    have ha : p a = true := h a (List.mem_cons_self a as)
    simp only [List.cons_append, List.dropWhile_cons, ha, if_true]
    exact ih (fun x hx => h x (List.mem_cons_of_mem _ hx))

theorem takeWhile_cons_of_neg {p : Char → Bool} {x : Char} {l : Str} (h : p x = false) :
    (x :: l).takeWhile p = [] := by
  simp [List.takeWhile_cons, h]

theorem dropWhile_cons_of_neg {p : Char → Bool} {x : Char} {l : Str} (h : p x = false) :
    (x :: l).dropWhile p = x :: l := by
  simp [List.dropWhile_cons, h]

theorem takeWhile_eq_self_of_all {p : Char → Bool} {A : Str} (h : ∀ x ∈ A, p x = true) :
    A.takeWhile p = A := by
  have := takeWhile_append_all (B := []) h
  simpa using this

theorem dropWhile_eq_nil_of_all {p : Char → Bool} {A : Str} (h : ∀ x ∈ A, p x = true) :
    A.dropWhile p = [] := by
  have := dropWhile_append_all (B := []) h
  simpa using this

theorem mem_dropWhile {p : Char → Bool} {l : Str} {x : Char} (h : x ∈ l.dropWhile p) :
    x ∈ l := by
  induction l with
  | nil => simp at h
  | cons a as ih =>
    simp only [List.dropWhile_cons] at h
    by_cases ha : p a = true
    · rw [if_pos ha] at h
      exact List.mem_cons_of_mem _ (ih h)
    · rw [if_neg ha] at h
      exact h

/-- The head of `dropWhile p l` falsifies `p`. -/
theorem dropWhile_head_neg {p : Char → Bool} {l : Str} {x : Char} {t : Str}
    (h : l.dropWhile p = x :: t) : p x = false := by
  induction l with
  | nil => simp at h
  | cons a as ih =>
    simp only [List.dropWhile_cons] at h
    by_cases ha : p a = true
    · rw [if_pos ha] at h
      exact ih h
    · rw [if_neg ha] at h
      cases h
      exact Bool.of_not_eq_true ha

theorem dropWhile_idem {p : Char → Bool} (l : Str) :
    (l.dropWhile p).dropWhile p = l.dropWhile p := by
  cases hd : l.dropWhile p with
  | nil => simp
  | cons x t => rw [dropWhile_cons_of_neg (dropWhile_head_neg hd)]

/-! pyRstrip lemmas -/

theorem pyRstrip_idem (c : Char) (s : Str) : pyRstrip c (pyRstrip c s) = pyRstrip c s := by
  simp [pyRstrip, dropWhile_idem]

theorem mem_pyRstrip {c x : Char} {s : Str} (h : x ∈ pyRstrip c s) : x ∈ s := by
  simp only [pyRstrip, List.mem_reverse] at h
  simpa using mem_dropWhile h

/-- A string whose last character is not `c` is fixed by `pyRstrip c`. -/
theorem pyRstrip_eq_self {c : Char} {s : Str} (h : ∀ t : Str, s ≠ t ++ [c]) :
    pyRstrip c s = s := by
  cases hs : s.reverse with
  | nil =>
    have : s = [] := by simpa using congrArg List.reverse hs
    simp [pyRstrip, this]
  | cons x t =>
    have hx : x ≠ c := by
      intro hxc
      subst hxc
      have : s = t.reverse ++ [x] := by
        have := congrArg List.reverse hs
        simpa using this
      exact h t.reverse this
    simp only [pyRstrip, hs]
    rw [dropWhile_cons_of_neg (by simp [hx])]
    rw [← hs, List.reverse_reverse]

/-- `pyRstrip` never leaves a trailing `c`. -/
theorem pyRstrip_no_trailing (c : Char) (s : Str) (t : Str) :
    pyRstrip c s ≠ t ++ [c] := by
  intro h
  have hrev : (pyRstrip c s).reverse = c :: t.reverse := by
    rw [h]
    simp
  simp only [pyRstrip, List.reverse_reverse] at hrev
  have := dropWhile_head_neg hrev
  simp at this

theorem pyRstrip_rstrip_self (c : Char) (s : Str) :
    pyRstrip c (pyRstrip c s) = pyRstrip c s :=
  pyRstrip_idem c s

/-- Stripping distributes over append when the second block keeps a
non-`c` character. -/
theorem pyRstrip_append {c : Char} {A B : Str} (h : pyRstrip c B ≠ []) :
    pyRstrip c (A ++ B) = A ++ pyRstrip c B := by
  simp only [pyRstrip, List.reverse_append] at h ⊢
  have hne : B.reverse.dropWhile (fun x => x = c) ≠ [] := by
    intro hnil
    rw [hnil] at h
    simp at h
  rw [List.dropWhile_append]
  rw [if_neg (by simpa using hne)]
  simp

/-- When all of `B` is stripped away, stripping `A ++ B` strips `A`. -/
theorem pyRstrip_append_nil {c : Char} {A B : Str} (h : pyRstrip c B = []) :
    pyRstrip c (A ++ B) = pyRstrip c A := by
  simp only [pyRstrip, List.reverse_append] at h ⊢
  have hnil : B.reverse.dropWhile (fun x => x = c) = [] := by
    simpa using congrArg List.reverse h
  rw [List.dropWhile_append, if_pos (by simpa using hnil)]

/-- `pyRstrip c s` is a prefix of `s`: `s = pyRstrip c s ++ (all-c tail)`. -/
theorem pyRstrip_decomposition (c : Char) (s : Str) :
    ∃ k : Nat, s = pyRstrip c s ++ List.replicate k c := by
  refine ⟨(s.reverse.takeWhile (fun x => x = c)).length, ?_⟩
  have hsplit : s.reverse.takeWhile (fun x => x = c) ++ s.reverse.dropWhile (fun x => x = c)
      = s.reverse := List.takeWhile_append_dropWhile _ _
  have htake : s.reverse.takeWhile (fun x => x = c)
      = List.replicate (s.reverse.takeWhile (fun x => x = c)).length c := by
    apply List.eq_replicate_of_mem
    intro b hb
    have := List.mem_takeWhile_imp hb
    simpa using this
  have := congrArg List.reverse hsplit
  simp only [List.reverse_append, List.reverse_reverse] at this
  conv_lhs => rw [← this]
  rw [htake]
  simp [pyRstrip]

/-- `pyStartsWith` is prefix decomposition. -/
theorem pyStartsWith_iff {pat s : Str} : pyStartsWith pat s = true ↔ ∃ t, s = pat ++ t := by
  induction pat generalizing s with
  | nil => simp [pyStartsWith]
  | cons p ps ih =>
    cases s with
    | nil =>
      constructor
      · intro h
        simp [pyStartsWith] at h
      · rintro ⟨t, ht⟩
        exact absurd ht (by simp)
    | cons x xs =>
      simp only [pyStartsWith, Bool.and_eq_true, decide_eq_true_eq, ih, List.cons_append,
        List.cons.injEq]
      constructor
      · rintro ⟨rfl, t, rfl⟩
        exact ⟨t, rfl, rfl⟩
      · rintro ⟨t, rfl, rfl⟩
        exact ⟨rfl, t, rfl⟩

/-- `containsSub` is substring decomposition. -/
theorem containsSub_iff {pat s : Str} : containsSub pat s = true ↔ ∃ a b, s = a ++ pat ++ b := by
  induction s with
  | nil =>
    simp only [containsSub, Bool.or_false, pyStartsWith_iff]
    constructor
    · rintro ⟨t, ht⟩
      exact ⟨[], t, by simpa using ht⟩
    · rintro ⟨a, b, h⟩
      cases a with
      | nil => exact ⟨b, by simpa using h⟩
      | cons y ys => exact List.noConfusion h
  | cons x xs ih =>
    simp only [containsSub, Bool.or_eq_true, pyStartsWith_iff, ih]
    constructor
    · rintro (⟨t, ht⟩ | ⟨a, b, h⟩)
      · exact ⟨[], t, by simpa using ht⟩
      · exact ⟨x :: a, b, by simp [h]⟩
    · rintro ⟨a, b, h⟩
      cases a with
      | nil => exact Or.inl ⟨b, by simpa using h⟩
      | cons y ys =>
        simp only [List.cons_append, List.cons.injEq] at h
        exact Or.inr ⟨ys, b, h.2⟩

theorem contains_iff_mem {l : Str} {c : Char} : l.contains c = true ↔ c ∈ l :=
  List.elem_iff

/-- `uptoLastSlash` and `afterLastSlash` decompose the path. -/
theorem upto_append_after (p : Str) : uptoLastSlash p ++ afterLastSlash p = p := by
  simp only [uptoLastSlash, afterLastSlash]
  rw [← List.reverse_append, List.takeWhile_append_dropWhile, List.reverse_reverse]

theorem slash_not_mem_after (p : Str) : '/' ∉ afterLastSlash p := by
  intro h
  simp only [afterLastSlash, List.mem_reverse] at h
  have := List.mem_takeWhile_imp h
  simp at this

theorem afterLastSlash_of_not_mem {p : Str} (h : '/' ∉ p) : afterLastSlash p = p := by
  simp only [afterLastSlash]
  rw [takeWhile_eq_self_of_all, List.reverse_reverse]
  intro x hx
  simp only [List.mem_reverse] at hx
  simp only [decide_eq_true_eq]
  intro hxe
  exact h (hxe ▸ hx)

/-- A `takeWhile` that is stopped inside the first block ignores the second. -/
theorem takeWhile_append_of_exists {p : Char → Bool} {A B : Str}
    (h : ∃ a ∈ A, p a = false) : (A ++ B).takeWhile p = A.takeWhile p := by
  induction A with
  | nil => simp at h
  | cons a as ih =>
    by_cases ha : p a = true
    · obtain ⟨a', ha', hpa'⟩ := h
      have ha'' : a' ∈ as := by
        rcases List.mem_cons.mp ha' with rfl | hm
        · rw [ha] at hpa'; cases hpa'
        · exact hm
      simp only [List.cons_append, List.takeWhile_cons, ha, if_true]
      rw [ih ⟨a', ha'', hpa'⟩]
    · have ha' : p a = false := Bool.of_not_eq_true ha
      simp [List.takeWhile_cons, ha']

theorem afterLastSlash_append {X Y : Str} (h : '/' ∈ Y) :
    afterLastSlash (X ++ Y) = afterLastSlash Y := by
  simp only [afterLastSlash, List.reverse_append]
  rw [takeWhile_append_of_exists]
  exact ⟨'/', by simpa using h, by simp⟩

theorem uptoLastSlash_ne_nil {p : Str} (h : '/' ∈ p) : uptoLastSlash p ≠ [] := by
  intro hnil
  have hdec := upto_append_after p
  rw [hnil, List.nil_append] at hdec
  rw [← hdec] at h
  exact slash_not_mem_after p h

theorem mem_afterLastSlash {p : Str} {x : Char} (h : x ∈ afterLastSlash p) : x ∈ p := by
  have := upto_append_after p
  rw [← this]
  exact List.mem_append_right _ h

theorem mem_uptoLastSlash {p : Str} {x : Char} (h : x ∈ uptoLastSlash p) : x ∈ p := by
  have := upto_append_after p
  rw [← this]
  exact List.mem_append_left _ h

/-- `_splitparams` is the identity when the last segment holds no `';'`. -/
theorem pySplitparams_eq_self {p : Str} (h : ';' ∉ afterLastSlash p) :
    pySplitparams p = (p, []) := by
  unfold pySplitparams
  by_cases hmem : '/' ∈ p
  · rw [if_pos (contains_iff_mem.mpr hmem)]
    rw [breakAtChar_eq_none_iff.mpr h]
  · rw [if_neg (by
      intro hc
      exact hmem (contains_iff_mem.mp hc))]
    rw [afterLastSlash_of_not_mem hmem] at h
    rw [breakAtChar_eq_none_iff.mpr h]

theorem urlparse_scheme_eq (u : Str) : (urlparse u).scheme = (urlsplit u).scheme := rfl

theorem urlparse_netloc_eq (u : Str) : (urlparse u).netloc = (urlsplit u).netloc := rfl

theorem urlparse_query_eq (u : Str) : (urlparse u).query = (urlsplit u).query := rfl

/-- Without a `';'` in the last raw-path segment, `urlparse` keeps the raw
path unchanged. -/
theorem urlparse_path_eq_pathRaw {u : Str}
    (h : ';' ∉ afterLastSlash (urlsplit u).pathRaw) :
    (urlparse u).path = (urlsplit u).pathRaw := by
  unfold urlparse
  by_cases hc : (urlsplit u).pathRaw.contains ';' = true
  · simp only [hc, if_true, pySplitparams_eq_self h]
  · simp only [Bool.not_eq_true] at hc
    have hnm : ';' ∉ (urlsplit u).pathRaw := fun hm => by
      rw [contains_iff_mem.mpr hm] at hc
      cases hc
    simp [hc, hnm]

/-! Stage facts for the parser -/

theorem validScheme_no_colon {s : Str} (h : validScheme s = true) : ':' ∉ s := by
  cases s with
  | nil => simp
  | cons c cs =>
    simp only [validScheme, Bool.and_eq_true, List.all_eq_true] at h
    intro hmem
    have := h.2 ':' hmem
    simp [schemeChar, Char.isAlphanum, Char.isAlpha, Char.isUpper, Char.isLower,
      Char.isDigit] at this

theorem validScheme_pyLower {s : Str} (h : validScheme s = true) :
    validScheme (pyLower s) = true := by
  cases s with
  | nil => simp [validScheme] at h
  | cons c cs =>
    simp only [validScheme, Bool.and_eq_true, List.all_eq_true] at h
    simp only [pyLower, List.map_cons, validScheme, Bool.and_eq_true, List.all_eq_true]
    refine ⟨charLower_isAlpha h.1, ?_⟩
    intro x hx
    rw [← List.map_cons] at hx
    obtain ⟨y, hy, rfl⟩ := List.mem_map.mp hx
    exact charLower_schemeChar (h.2 y hy)

theorem validScheme_head_alpha {s : Str} (h : validScheme s = true) :
    ∃ c cs, s = c :: cs ∧ c.isAlpha = true := by
  cases s with
  | nil => simp [validScheme] at h
  | cons c cs =>
    simp only [validScheme, Bool.and_eq_true] at h
    exact ⟨c, cs, rfl, h.1⟩

theorem splitScheme_eq_some {url pre post : Str}
    (hbk : breakAtChar ':' url = some (pre, post)) :
    splitScheme url = if validScheme pre = true then (pyLower pre, post) else ([], url) := by
  unfold splitScheme
  rw [hbk]

theorem splitScheme_eq_none {url : Str} (hbk : breakAtChar ':' url = none) :
    splitScheme url = ([], url) := by
  unfold splitScheme
  rw [hbk]

theorem mem_takeWhile_mem {p : Char → Bool} {l : Str} {x : Char}
    (h : x ∈ l.takeWhile p) : x ∈ l := by
  induction l with
  | nil => simp at h
  | cons a as ih =>
    simp only [List.takeWhile_cons] at h
    by_cases ha : p a = true
    · rw [if_pos ha] at h
      rcases List.mem_cons.mp h with rfl | hm
      · exact List.mem_cons_self _ _
      · exact List.mem_cons_of_mem _ (ih hm)
    · rw [if_neg ha] at h
      simp at h

theorem splitScheme_spec (url : Str) :
    (splitScheme url).1 = [] ∨
      (validScheme (splitScheme url).1 = true ∧
        pyLower (splitScheme url).1 = (splitScheme url).1) := by
  cases hbk : breakAtChar ':' url with
  | none => rw [splitScheme_eq_none hbk]; simp
  | some p =>
    obtain ⟨pre, post⟩ := p
    rw [splitScheme_eq_some hbk]
    by_cases hv : validScheme pre = true
    · rw [if_pos hv]
      exact Or.inr ⟨validScheme_pyLower hv, pyLower_idem pre⟩
    · rw [if_neg hv]
      simp

theorem mem_splitScheme_fst {url : Str} {x : Char} (h : x ∈ (splitScheme url).1) :
    ∃ y ∈ url, x = Char.toLower y := by
  cases hbk : breakAtChar ':' url with
  | none =>
    rw [splitScheme_eq_none hbk] at h
    simp at h
  | some p =>
    obtain ⟨pre, post⟩ := p
    rw [splitScheme_eq_some hbk] at h
    obtain ⟨hdec, -⟩ := breakAtChar_eq_some_iff.mp hbk
    by_cases hv : validScheme pre = true
    · rw [if_pos hv] at h
      simp only [pyLower] at h
      obtain ⟨y, hy, rfl⟩ := List.mem_map.mp h
      exact ⟨y, by rw [hdec]; exact List.mem_append_left _ hy, rfl⟩
    · rw [if_neg hv] at h
      simp at h

theorem mem_splitScheme_snd {url : Str} {x : Char} (h : x ∈ (splitScheme url).2) :
    x ∈ url := by
  cases hbk : breakAtChar ':' url with
  | none =>
    rw [splitScheme_eq_none hbk] at h
    exact h
  | some p =>
    obtain ⟨pre, post⟩ := p
    rw [splitScheme_eq_some hbk] at h
    obtain ⟨hdec, -⟩ := breakAtChar_eq_some_iff.mp hbk
    by_cases hv : validScheme pre = true
    · rw [if_pos hv] at h
      simp only at h
      rw [hdec]
      exact List.mem_append_right _ (List.mem_cons_of_mem _ h)
    · rw [if_neg hv] at h
      exact h

theorem splitNetloc_fst_delim (r : Str) : ∀ x ∈ (splitNetloc r).1, netlocDelim x = false := by
  intro x hx
  unfold splitNetloc at hx
  by_cases hp : pyStartsWith (pyStr "//") r = true
  · rw [if_pos hp] at hx
    simp only at hx
    have := List.mem_takeWhile_imp hx
    simpa using this
  · rw [if_neg hp] at hx
    simp at hx

theorem mem_splitNetloc_fst {r : Str} {x : Char} (h : x ∈ (splitNetloc r).1) : x ∈ r := by
  unfold splitNetloc at h
  by_cases hp : pyStartsWith (pyStr "//") r = true
  · rw [if_pos hp] at h
    simp only at h
    exact List.mem_of_mem_drop (mem_takeWhile_mem h)
  · rw [if_neg hp] at h
    simp at h

theorem mem_splitNetloc_snd {r : Str} {x : Char} (h : x ∈ (splitNetloc r).2) : x ∈ r := by
  unfold splitNetloc at h
  by_cases hp : pyStartsWith (pyStr "//") r = true
  · rw [if_pos hp] at h
    simp only at h
    exact List.mem_of_mem_drop (mem_dropWhile h)
  · rw [if_neg hp] at h
    exact h

/-- When a netloc was actually extracted, the remainder is empty or starts
with a delimiter. -/
theorem splitNetloc_snd_head {r : Str} (h : (splitNetloc r).1 ≠ []) :
    (splitNetloc r).2 = [] ∨
      ∃ d t, (splitNetloc r).2 = d :: t ∧ netlocDelim d = true := by
  unfold splitNetloc at h ⊢
  by_cases hp : pyStartsWith (pyStr "//") r = true
  · rw [if_pos hp] at h ⊢
    simp only at h ⊢
    cases hd : (r.drop 2).dropWhile (fun c => !netlocDelim c) with
    | nil => exact Or.inl rfl
    | cons d t =>
      right
      refine ⟨d, t, rfl, ?_⟩
      have := dropWhile_head_neg hd
      simpa using this
  · rw [if_neg hp] at h
    simp at h

theorem splitFragment_eq_some {r a b : Str} (hbk : breakAtChar '#' r = some (a, b)) :
    splitFragment r = (a, b) := by
  unfold splitFragment
  rw [hbk]

theorem splitFragment_eq_none {r : Str} (hbk : breakAtChar '#' r = none) :
    splitFragment r = (r, []) := by
  unfold splitFragment
  rw [hbk]

theorem splitQuery_eq_some {r a b : Str} (hbk : breakAtChar '?' r = some (a, b)) :
    splitQuery r = (a, b) := by
  unfold splitQuery
  rw [hbk]

theorem splitQuery_eq_none {r : Str} (hbk : breakAtChar '?' r = none) :
    splitQuery r = (r, []) := by
  unfold splitQuery
  rw [hbk]

theorem splitFragment_fst_no_hash (r : Str) : '#' ∉ (splitFragment r).1 := by
  cases hbk : breakAtChar '#' r with
  | none =>
    rw [splitFragment_eq_none hbk]
    exact breakAtChar_eq_none_iff.mp hbk
  | some p =>
    obtain ⟨a, b⟩ := p
    rw [splitFragment_eq_some hbk]
    exact (breakAtChar_eq_some_iff.mp hbk).2

theorem mem_splitFragment_fst {r : Str} {x : Char} (h : x ∈ (splitFragment r).1) : x ∈ r := by
  cases hbk : breakAtChar '#' r with
  | none =>
    rw [splitFragment_eq_none hbk] at h
    exact h
  | some p =>
    obtain ⟨a, b⟩ := p
    rw [splitFragment_eq_some hbk] at h
    rw [(breakAtChar_eq_some_iff.mp hbk).1]
    exact List.mem_append_left _ h

theorem mem_splitFragment_snd {r : Str} {x : Char} (h : x ∈ (splitFragment r).2) : x ∈ r := by
  cases hbk : breakAtChar '#' r with
  | none =>
    rw [splitFragment_eq_none hbk] at h
    simp at h
  | some p =>
    obtain ⟨a, b⟩ := p
    rw [splitFragment_eq_some hbk] at h
    rw [(breakAtChar_eq_some_iff.mp hbk).1]
    exact List.mem_append_right _ (List.mem_cons_of_mem _ h)

theorem splitQuery_fst_no_qmark (r : Str) : '?' ∉ (splitQuery r).1 := by
  cases hbk : breakAtChar '?' r with
  | none =>
    rw [splitQuery_eq_none hbk]
    exact breakAtChar_eq_none_iff.mp hbk
  | some p =>
    obtain ⟨a, b⟩ := p
    rw [splitQuery_eq_some hbk]
    exact (breakAtChar_eq_some_iff.mp hbk).2

theorem mem_splitQuery_fst {r : Str} {x : Char} (h : x ∈ (splitQuery r).1) : x ∈ r := by
  cases hbk : breakAtChar '?' r with
  | none =>
    rw [splitQuery_eq_none hbk] at h
    exact h
  | some p =>
    obtain ⟨a, b⟩ := p
    rw [splitQuery_eq_some hbk] at h
    rw [(breakAtChar_eq_some_iff.mp hbk).1]
    exact List.mem_append_left _ h

theorem mem_splitQuery_snd {r : Str} {x : Char} (h : x ∈ (splitQuery r).2) : x ∈ r := by
  cases hbk : breakAtChar '?' r with
  | none =>
    rw [splitQuery_eq_none hbk] at h
    simp at h
  | some p =>
    obtain ⟨a, b⟩ := p
    rw [splitQuery_eq_some hbk] at h
    rw [(breakAtChar_eq_some_iff.mp hbk).1]
    exact List.mem_append_right _ (List.mem_cons_of_mem _ h)

/-- A split at `c` preserves a head different from `c`. -/
theorem splitFragment_fst_head {d : Char} {t : Str} (hd : d ≠ '#') :
    ∃ t', (splitFragment (d :: t)).1 = d :: t' := by
  cases hbk : breakAtChar '#' (d :: t) with
  | none =>
    rw [splitFragment_eq_none hbk]
    exact ⟨t, rfl⟩
  | some p =>
    obtain ⟨a, b⟩ := p
    rw [splitFragment_eq_some hbk]
    obtain ⟨hdec, hnm⟩ := breakAtChar_eq_some_iff.mp hbk
    cases a with
    | nil =>
      simp only [List.nil_append, List.cons.injEq] at hdec
      exact absurd hdec.1 hd
    | cons y ys =>
      simp only [List.cons_append, List.cons.injEq] at hdec
      exact ⟨ys, by rw [hdec.1]⟩

theorem splitQuery_fst_head {d : Char} {t : Str} (hd : d ≠ '?') :
    ∃ t', (splitQuery (d :: t)).1 = d :: t' := by
  cases hbk : breakAtChar '?' (d :: t) with
  | none =>
    rw [splitQuery_eq_none hbk]
    exact ⟨t, rfl⟩
  | some p =>
    obtain ⟨a, b⟩ := p
    rw [splitQuery_eq_some hbk]
    obtain ⟨hdec, hnm⟩ := breakAtChar_eq_some_iff.mp hbk
    cases a with
    | nil =>
      simp only [List.nil_append, List.cons.injEq] at hdec
      exact absurd hdec.1 hd
    | cons y ys =>
      simp only [List.cons_append, List.cons.injEq] at hdec
      exact ⟨ys, by rw [hdec.1]⟩

/-! Field-level facts about `urlsplit` on arbitrary input -/

theorem urlsplit_fields (u : Str) :
    urlsplit u =
      ⟨(splitScheme (sanitizeUrl u)).1,
        (splitNetloc (splitScheme (sanitizeUrl u)).2).1,
        (splitQuery (splitFragment (splitNetloc (splitScheme (sanitizeUrl u)).2).2).1).1,
        (splitQuery (splitFragment (splitNetloc (splitScheme (sanitizeUrl u)).2).2).1).2,
        (splitFragment (splitNetloc (splitScheme (sanitizeUrl u)).2).2).2⟩ := rfl

theorem urlsplit_scheme_spec (u : Str) :
    (urlsplit u).scheme = [] ∨
      (validScheme (urlsplit u).scheme = true ∧
        pyLower (urlsplit u).scheme = (urlsplit u).scheme) :=
  splitScheme_spec (sanitizeUrl u)

theorem urlsplit_netloc_delim (u : Str) :
    ∀ x ∈ (urlsplit u).netloc, netlocDelim x = false :=
  splitNetloc_fst_delim _

theorem urlsplit_pathRaw_no_qmark (u : Str) : '?' ∉ (urlsplit u).pathRaw :=
  splitQuery_fst_no_qmark _

theorem urlsplit_pathRaw_no_hash (u : Str) : '#' ∉ (urlsplit u).pathRaw :=
  fun h => splitFragment_fst_no_hash _ (mem_splitQuery_fst h)

theorem urlsplit_query_no_hash (u : Str) : '#' ∉ (urlsplit u).query :=
  fun h => splitFragment_fst_no_hash _ (mem_splitQuery_snd h)

/-- Every character of a parsed component comes from the sanitized input
(hence is not an unsafe byte), except the scheme whose characters are
lowerings of sanitized-input characters. -/
theorem mem_urlsplit_netloc {u : Str} {x : Char} (h : x ∈ (urlsplit u).netloc) :
    x ∈ sanitizeUrl u :=
  mem_splitScheme_snd (mem_splitNetloc_fst h)

theorem mem_urlsplit_pathRaw {u : Str} {x : Char} (h : x ∈ (urlsplit u).pathRaw) :
    x ∈ sanitizeUrl u :=
  mem_splitScheme_snd (mem_splitNetloc_snd (mem_splitFragment_fst (mem_splitQuery_fst h)))

theorem mem_urlsplit_query {u : Str} {x : Char} (h : x ∈ (urlsplit u).query) :
    x ∈ sanitizeUrl u :=
  mem_splitScheme_snd (mem_splitNetloc_snd (mem_splitFragment_fst (mem_splitQuery_snd h)))

theorem sanitize_not_unsafe {u : Str} {x : Char} (h : x ∈ sanitizeUrl u) :
    isUnsafeUrlByte x = false := by
  simp only [sanitizeUrl, List.mem_filter] at h
  simpa using h.2

/-- When a netloc is present the raw path is empty or starts with `'/'`. -/
theorem urlsplit_pathRaw_head {u : Str} (h : (urlsplit u).netloc ≠ []) :
    (urlsplit u).pathRaw = [] ∨ ∃ t, (urlsplit u).pathRaw = '/' :: t := by
  have hpath : (urlsplit u).pathRaw =
      (splitQuery (splitFragment (splitNetloc (splitScheme (sanitizeUrl u)).2).2).1).1 := rfl
  have hnet : (urlsplit u).netloc = (splitNetloc (splitScheme (sanitizeUrl u)).2).1 := rfl
  rw [hnet] at h
  rw [hpath]
  rcases splitNetloc_snd_head h with hnil | ⟨d, t, hdt, hdel⟩
  · left
    rw [hnil]
    rw [splitFragment_eq_none (breakAtChar_eq_none_iff.mpr (by simp))]
    rw [splitQuery_eq_none (breakAtChar_eq_none_iff.mpr (by simp))]
  · rw [hdt]
    have hdel' : (d = '/' ∨ d = '?') ∨ d = '#' := by
      simpa [netlocDelim] using hdel
    rcases hdel' with (rfl | rfl) | rfl
    · right
      obtain ⟨t1, ht1⟩ := splitFragment_fst_head (d := '/') (t := t) (by decide)
      rw [ht1]
      obtain ⟨t2, ht2⟩ := splitQuery_fst_head (d := '/') (t := t1) (by decide)
      rw [ht2]
      exact ⟨t2, rfl⟩
    · left
      rcases hbk : breakAtChar '#' ('?' :: t) with _ | p
      · rw [splitFragment_eq_none hbk]
        show (splitQuery ('?' :: t)).1 = []
        have hbk2 : breakAtChar '?' ('?' :: t) = some ([], t) := by
          simp [breakAtChar]
        rw [splitQuery_eq_some hbk2]
      · obtain ⟨a, b⟩ := p
        rw [splitFragment_eq_some hbk]
        obtain ⟨hdec, hnm⟩ := breakAtChar_eq_some_iff.mp hbk
        cases a with
        | nil =>
          show (splitQuery []).1 = []
          rw [splitQuery_eq_none (breakAtChar_eq_none_iff.mpr (by simp))]
        | cons y ys =>
          simp only [List.cons_append, List.cons.injEq] at hdec
          show (splitQuery (y :: ys)).1 = []
          rw [← hdec.1]
          have hbk2 : breakAtChar '?' ('?' :: ys) = some ([], ys) := by
            simp [breakAtChar]
          rw [splitQuery_eq_some hbk2]
    · left
      have hbk3 : breakAtChar '#' ('#' :: t) = some ([], t) := by
        simp [breakAtChar]
      rw [splitFragment_eq_some hbk3]
      show (splitQuery []).1 = []
      rw [splitQuery_eq_none (breakAtChar_eq_none_iff.mpr (by simp))]

theorem filter_eq_self_of_all {p : Char → Bool} {l : Str} (h : ∀ x ∈ l, p x = true) :
    l.filter p = l := by
  induction l with
  | nil => rfl
  | cons a as ih =>
    rw [List.filter_cons, if_pos (h a (List.mem_cons_self a as))]
    rw [ih (fun x hx => h x (List.mem_cons_of_mem _ hx))]

theorem sanitizeUrl_eq_self {s : Str} (hu : ∀ x ∈ s, isUnsafeUrlByte x = false)
    (hh : ∀ x t, s = x :: t → isC0OrSpace x = false) : sanitizeUrl s = s := by
  cases s with
  | nil => rfl
  | cons x t =>
    unfold sanitizeUrl
    rw [dropWhile_cons_of_neg (hh x t rfl)]
    apply filter_eq_self_of_all
    intro y hy
    simp [hu y hy]

theorem charLower_not_unsafe {c : Char} (h : isUnsafeUrlByte c = false) :
    isUnsafeUrlByte (Char.toLower c) = false := by
  rcases charLower_toNat_cases c with hc | ⟨h1, h2⟩
  · rw [hc]; exact h
  · have ht : Char.toLower c ≠ '\t' := fun he => absurd (he ▸ h1) (by decide)
    have hr : Char.toLower c ≠ '\r' := fun he => absurd (he ▸ h1) (by decide)
    have hn : Char.toLower c ≠ '\n' := fun he => absurd (he ▸ h1) (by decide)
    simp [isUnsafeUrlByte, ht, hr, hn]

theorem mem_urlparse_path {u : Str} {x : Char} (h : x ∈ (urlparse u).path) :
    x ∈ (urlsplit u).pathRaw := by
  unfold urlparse at h
  by_cases hc : (urlsplit u).pathRaw.contains ';' = true
  · simp only [hc, if_true] at h
    unfold pySplitparams at h
    by_cases hs : (urlsplit u).pathRaw.contains '/' = true
    · rw [if_pos hs] at h
      cases hbk : breakAtChar ';' (afterLastSlash (urlsplit u).pathRaw) with
      | none =>
        rw [hbk] at h
        exact h
      | some p =>
        obtain ⟨a, b⟩ := p
        rw [hbk] at h
        simp only at h
        rcases List.mem_append.mp h with hm | hm
        · exact mem_uptoLastSlash hm
        · have hsub : x ∈ afterLastSlash (urlsplit u).pathRaw := by
            rw [(breakAtChar_eq_some_iff.mp hbk).1]
            exact List.mem_append_left _ hm
          exact mem_afterLastSlash hsub
    · rw [if_neg hs] at h
      cases hbk : breakAtChar ';' (urlsplit u).pathRaw with
      | none =>
        rw [hbk] at h
        exact h
      | some p =>
        obtain ⟨a, b⟩ := p
        rw [hbk] at h
        simp only at h
        rw [(breakAtChar_eq_some_iff.mp hbk).1]
        exact List.mem_append_left _ h
  · simp only [hc] at h
    simpa using h

theorem urlparse_path_no_qmark (u : Str) : '?' ∉ (urlparse u).path :=
  fun h => urlsplit_pathRaw_no_qmark u (mem_urlparse_path h)

theorem urlparse_path_no_hash (u : Str) : '#' ∉ (urlparse u).path :=
  fun h => urlsplit_pathRaw_no_hash u (mem_urlparse_path h)

theorem uptoLastSlash_head {p : Str} {t : Str} (hp : p = '/' :: t)
    (hne : uptoLastSlash p ≠ []) : ∃ t', uptoLastSlash p = '/' :: t' := by
  have hdec := upto_append_after p
  cases hu : uptoLastSlash p with
  | nil => exact absurd hu hne
  | cons y ys =>
    rw [hu] at hdec
    rw [hp] at hdec
    simp only [List.cons_append, List.cons.injEq] at hdec
    exact ⟨ys, by rw [hdec.1]⟩

/-- When a netloc is present the parsed path is empty or starts with `'/'`. -/
theorem urlparse_path_head {u : Str} (hN : (urlsplit u).netloc ≠ []) :
    (urlparse u).path = [] ∨ ∃ t, (urlparse u).path = '/' :: t := by
  rcases urlsplit_pathRaw_head hN with hnil | ⟨t, ht⟩
  · left
    unfold urlparse
    have : (urlsplit u).pathRaw.contains ';' = false := by
      rw [hnil]; rfl
    simp [this, hnil]
  · unfold urlparse
    by_cases hc : (urlsplit u).pathRaw.contains ';' = true
    · simp only [hc, if_true]
      unfold pySplitparams
      have hs : (urlsplit u).pathRaw.contains '/' = true :=
        contains_iff_mem.mpr (by rw [ht]; exact List.mem_cons_self _ _)
      rw [if_pos hs]
      cases hbk : breakAtChar ';' (afterLastSlash (urlsplit u).pathRaw) with
      | none =>
        right
        exact ⟨t, by simpa using ht⟩
      | some p =>
        obtain ⟨a, b⟩ := p
        right
        have hne : uptoLastSlash (urlsplit u).pathRaw ≠ [] :=
          uptoLastSlash_ne_nil (by rw [ht]; exact List.mem_cons_self _ _)
        obtain ⟨t', ht'⟩ := uptoLastSlash_head ht hne
        simp only
        rw [ht']
        exact ⟨t' ++ a, rfl⟩
    · simp only [hc, if_false]
      right
      exact ⟨t, by simpa using ht⟩

theorem pyRstrip_head {PA t : Str} (h : PA = '/' :: t) (hne : pyRstrip '/' PA ≠ []) :
    ∃ t', pyRstrip '/' PA = '/' :: t' := by
  obtain ⟨k, hk⟩ := pyRstrip_decomposition '/' PA
  cases hp : pyRstrip '/' PA with
  | nil => exact absurd hp hne
  | cons y ys =>
    rw [hp] at hk
    rw [h] at hk
    simp only [List.cons_append, List.cons.injEq] at hk
    exact ⟨ys, by rw [hk.1]⟩

/-- `normalize_url` written as one explicit concatenation. -/
theorem normalize_url_explicit (u : Str) :
    normalize_url u =
      (if (urlsplit u).scheme = [] then pyStr "https" else (urlsplit u).scheme) ++
        ':' :: '/' :: '/' ::
          ((urlsplit u).netloc ++ pyRstrip '/' (urlparse u).path ++
            (if (urlsplit u).query = [] then ([] : Str) else '?' :: (urlsplit u).query)) := by
  simp only [normalize_url, urlparse_scheme_eq, urlparse_netloc_eq, urlparse_query_eq]
  have hsep : pyStr "://" = [':', '/', '/'] := rfl
  rw [hsep]
  simp [List.append_assoc]

/-- Sanitation fixes the rebuilt URL, and scheme detection recovers its
scheme (shared first half of the re-parsing argument; no netloc
assumption). -/
theorem normalize_sanitize_scheme (u : Str) :
    sanitizeUrl (normalize_url u) = normalize_url u ∧
      splitScheme (normalize_url u) =
        ((if (urlsplit u).scheme = [] then pyStr "https" else (urlsplit u).scheme),
          '/' :: '/' ::
            ((urlsplit u).netloc ++ pyRstrip '/' (urlparse u).path ++
              (if (urlsplit u).query = [] then ([] : Str) else '?' :: (urlsplit u).query))) := by
  set S : Str := (urlsplit u).scheme with hS
  set N : Str := (urlsplit u).netloc with hNdef
  set PA : Str := (urlparse u).path with hPAdef
  set Q : Str := (urlsplit u).query with hQdef
  set S' : Str := if S = [] then pyStr "https" else S with hSPdef
  set P : Str := pyRstrip '/' PA with hPdef
  set QS : Str := if Q = [] then ([] : Str) else '?' :: Q with hQSdef
  have hout : normalize_url u = S' ++ ':' :: '/' :: '/' :: (N ++ P ++ QS) :=
    normalize_url_explicit u
  have hSgood : validScheme S' = true ∧ pyLower S' = S' := by
    by_cases h0 : S = []
    · rw [hSPdef, if_pos h0]
      exact ⟨by decide, by decide⟩
    · rcases urlsplit_scheme_spec u with h1 | ⟨hv, hl⟩
      · exact absurd h1 h0
      · rw [hSPdef, if_neg h0]
        exact ⟨hv, hl⟩
  have hScolon : ':' ∉ S' := validScheme_no_colon hSgood.1
  obtain ⟨c0, cs0, hc0, hc0alpha⟩ := validScheme_head_alpha hSgood.1
  have hNu : ∀ x ∈ N, isUnsafeUrlByte x = false := fun x hx =>
    sanitize_not_unsafe (mem_urlsplit_netloc hx)
  have hPu : ∀ x ∈ P, isUnsafeUrlByte x = false := fun x hx =>
    sanitize_not_unsafe (mem_urlsplit_pathRaw (mem_urlparse_path (mem_pyRstrip hx)))
  have hQu : ∀ x ∈ Q, isUnsafeUrlByte x = false := fun x hx =>
    sanitize_not_unsafe (mem_urlsplit_query hx)
  have hS'u : ∀ x ∈ S', isUnsafeUrlByte x = false := by
    by_cases h0 : S = []
    · rw [hSPdef, if_pos h0]
      decide
    · rw [hSPdef, if_neg h0]
      intro x hx
      obtain ⟨y, hy, rfl⟩ := mem_splitScheme_fst hx
      exact charLower_not_unsafe ( sanitize_not_unsafe hy)
  have hsan : sanitizeUrl (normalize_url u) = normalize_url u := by
    rw [hout]
    apply sanitizeUrl_eq_self
    · intro x hx
      rcases List.mem_append.mp hx with hx | hx
      · exact hS'u x hx
      · simp only [List.mem_cons] at hx
        rcases hx with rfl | rfl | rfl | hx
        · decide
        · decide
        · decide
        · rcases List.mem_append.mp hx with hx2 | hx2
          · rcases List.mem_append.mp hx2 with hx3 | hx3
            · exact hNu x hx3
            · exact hPu x hx3
          · by_cases h0 : Q = []
            · rw [hQSdef, if_pos h0] at hx2
              simp at hx2
            · rw [hQSdef, if_neg h0] at hx2
              rcases List.mem_cons.mp hx2 with rfl | hx3
              · decide
              · exact hQu x hx3
    · intro x t hxt
      rw [hc0] at hxt
      simp only [List.cons_append, List.cons.injEq] at hxt
      rw [← hxt.1]
      have halpha := (char_isAlpha_iff c0).mp hc0alpha
      simp only [isC0OrSpace, decide_eq_false_iff_not, Nat.not_le]
      omega
  have hbk1 : breakAtChar ':' (normalize_url u) =
      some (S', '/' :: '/' :: (N ++ P ++ QS)) := by
    rw [hout]
    exact breakAtChar_append hScolon
  have hstep2 : splitScheme (normalize_url u) = (S', '/' :: '/' :: (N ++ P ++ QS)) := by
    rw [splitScheme_eq_some hbk1, if_pos hSgood.1, hSgood.2]
  exact ⟨hsan, hstep2⟩

/-- Re-parsing the normalized URL of `u` recovers its components exactly,
whenever `u` has a non-empty netloc. -/
theorem urlsplit_normalize_of_netloc {u : Str} (hN : (urlsplit u).netloc ≠ []) :
    urlsplit (normalize_url u) =
      ⟨(if (urlsplit u).scheme = [] then pyStr "https" else (urlsplit u).scheme),
        (urlsplit u).netloc,
        pyRstrip '/' (urlparse u).path,
        (urlsplit u).query,
        []⟩ := by
  obtain ⟨hsan, hstep2⟩ := normalize_sanitize_scheme u
  set S : Str := (urlsplit u).scheme with hS
  set N : Str := (urlsplit u).netloc with hNdef
  set PA : Str := (urlparse u).path with hPAdef
  set Q : Str := (urlsplit u).query with hQdef
  set S' : Str := if S = [] then pyStr "https" else S with hSPdef
  set P : Str := pyRstrip '/' PA with hPdef
  set QS : Str := if Q = [] then ([] : Str) else '?' :: Q with hQSdef
  have hPhash : '#' ∉ P := fun hx => urlparse_path_no_hash u (mem_pyRstrip hx)
  have hPq : '?' ∉ P := fun hx => urlparse_path_no_qmark u (mem_pyRstrip hx)
  have hQhash : '#' ∉ Q := urlsplit_query_no_hash u
  have hNdelim : ∀ x ∈ N, netlocDelim x = false := urlsplit_netloc_delim u
  have hPheadOrNil : P = [] ∨ ∃ t, P = '/' :: t := by
    rcases urlparse_path_head hN with h0 | ⟨t, ht⟩
    · left
      show pyRstrip '/' PA = []
      rw [hPAdef, h0]
      rfl
    · by_cases hPnil : P = []
      · exact Or.inl hPnil
      · right
        show ∃ t, pyRstrip '/' PA = '/' :: t
        have hPnil' : pyRstrip '/' PA ≠ [] := hPnil
        rw [hPAdef] at hPnil' ⊢
        exact pyRstrip_head ht hPnil'
  have hNall : ∀ x ∈ N, (fun c => !netlocDelim c) x = true := by
    intro x hx
    simp [hNdelim x hx]
  have htail : (P ++ QS).takeWhile (fun c => !netlocDelim c) = [] ∧
      (P ++ QS).dropWhile (fun c => !netlocDelim c) = P ++ QS := by
    rcases hPheadOrNil with hPnil | ⟨t, ht⟩
    · rw [hPnil]
      simp only [List.nil_append]
      by_cases h0 : Q = []
      · rw [hQSdef, if_pos h0]
        simp
      · rw [hQSdef, if_neg h0]
        exact ⟨takeWhile_cons_of_neg (by decide), dropWhile_cons_of_neg (by decide)⟩
    · rw [ht]
      simp only [List.cons_append]
      exact ⟨takeWhile_cons_of_neg (by decide), dropWhile_cons_of_neg (by decide)⟩
  have hPQStake : (N ++ P ++ QS).takeWhile (fun c => !netlocDelim c) = N := by
    rw [List.append_assoc, takeWhile_append_all hNall, htail.1, List.append_nil]
  have hPQSdrop : (N ++ P ++ QS).dropWhile (fun c => !netlocDelim c) = P ++ QS := by
    rw [List.append_assoc, dropWhile_append_all hNall, htail.2]
  have hstart : pyStartsWith (pyStr "//") ('/' :: '/' :: (N ++ P ++ QS)) = true := by
    have h2 : pyStr "//" = ['/', '/'] := rfl
    rw [h2]
    simp [pyStartsWith]
  have hstep3 : splitNetloc ('/' :: '/' :: (N ++ P ++ QS)) = (N, P ++ QS) := by
    unfold splitNetloc
    rw [if_pos hstart]
    have hdrop : ('/' :: '/' :: (N ++ P ++ QS)).drop 2 = N ++ P ++ QS := rfl
    simp only [hdrop]
    rw [hPQStake, hPQSdrop]
  have hnohash : '#' ∉ P ++ QS := by
    intro hx
    rcases List.mem_append.mp hx with hx | hx
    · exact hPhash hx
    · by_cases h0 : Q = []
      · rw [hQSdef, if_pos h0] at hx
        simp at hx
      · rw [hQSdef, if_neg h0] at hx
        rcases List.mem_cons.mp hx with h | h
        · exact absurd h (by decide)
        · exact hQhash h
  have hstep4 : splitFragment (P ++ QS) = (P ++ QS, []) :=
    splitFragment_eq_none (breakAtChar_eq_none_iff.mpr hnohash)
  have hstep5 : splitQuery (P ++ QS) = (P, Q) := by
    by_cases h0 : Q = []
    · rw [hQSdef, if_pos h0, List.append_nil]
      rw [splitQuery_eq_none (breakAtChar_eq_none_iff.mpr hPq), h0]
    · rw [hQSdef, if_neg h0]
      exact splitQuery_eq_some (breakAtChar_append hPq)
  rw [urlsplit_fields (normalize_url u)]
  rw [hsan, hstep2]
  simp only [hstep3, hstep4, hstep5]

/-- Idempotence of `normalize_url` when the URL has a netloc. -/
theorem normalize_idem_of_netloc {u : Str} (hN : (urlsplit u).netloc ≠ [])
    (h1 : ';' ∉ afterLastSlash (pyRstrip '/' (urlparse u).path)) :
    normalize_url (normalize_url u) = normalize_url u := by
  have hre := urlsplit_normalize_of_netloc hN
  have hS'' : (urlsplit (normalize_url u)).scheme =
      (if (urlsplit u).scheme = [] then pyStr "https" else (urlsplit u).scheme) := by
    rw [hre]
  have hN'' : (urlsplit (normalize_url u)).netloc = (urlsplit u).netloc := by rw [hre]
  have hPr : (urlsplit (normalize_url u)).pathRaw = pyRstrip '/' (urlparse u).path := by
    rw [hre]
  have hQ'' : (urlsplit (normalize_url u)).query = (urlsplit u).query := by rw [hre]
  have hpath : (urlparse (normalize_url u)).path = pyRstrip '/' (urlparse u).path := by
    rw [urlparse_path_eq_pathRaw (by rw [hPr]; exact h1), hPr]
  have hS'ne : (if (urlsplit u).scheme = [] then pyStr "https" else (urlsplit u).scheme) ≠ [] := by
    by_cases h0 : (urlsplit u).scheme = []
    · rw [if_pos h0]
      decide
    · rw [if_neg h0]
      exact h0
  rw [normalize_url_explicit (normalize_url u)]
  rw [hS'', hN'', hpath, hQ'']
  rw [if_neg hS'ne, pyRstrip_idem]
  exact (normalize_url_explicit u).symm

/-- Idempotence of `normalize_url` when the URL has an empty netloc: the
components shift on re-parsing, but the rebuilt string is unchanged. -/
theorem normalize_idem_of_nil {u : Str} (hN : (urlsplit u).netloc = [])
    (h1 : ';' ∉ afterLastSlash (pyRstrip '/' (urlparse u).path)) :
    normalize_url (normalize_url u) = normalize_url u := by
  obtain ⟨hsan, hstep2⟩ := normalize_sanitize_scheme u
  set S' : Str := if (urlsplit u).scheme = [] then pyStr "https" else (urlsplit u).scheme
    with hSPdef
  set P : Str := pyRstrip '/' (urlparse u).path with hPdef
  set Q : Str := (urlsplit u).query with hQdef
  set QS : Str := if Q = [] then ([] : Str) else '?' :: Q with hQSdef
  rw [hN] at hstep2
  simp only [List.nil_append] at hstep2
  have hS'ne : S' ≠ [] := by
    by_cases h0 : (urlsplit u).scheme = []
    · rw [hSPdef, if_pos h0]
      decide
    · rw [hSPdef, if_neg h0]
      exact h0
  have hPnoq : '?' ∉ P := fun hx => urlparse_path_no_qmark u (mem_pyRstrip hx)
  have hPnoh : '#' ∉ P := fun hx => urlparse_path_no_hash u (mem_pyRstrip hx)
  have hQhash : '#' ∉ Q := urlsplit_query_no_hash u
  have hstart : pyStartsWith (pyStr "//") ('/' :: '/' :: (P ++ QS)) = true := by
    have h2 : pyStr "//" = ['/', '/'] := rfl
    rw [h2]
    simp [pyStartsWith]
  set A : Str := P.takeWhile (fun c => !netlocDelim c) with hAdef
  set B : Str := P.dropWhile (fun c => !netlocDelim c) with hBdef
  have hAB : A ++ B = P := List.takeWhile_append_dropWhile _ _
  have hAall : ∀ x ∈ A, (fun c => !netlocDelim c) x = true := by
    intro x hx
    rw [hAdef] at hx
    exact List.mem_takeWhile_imp (p := fun c => !netlocDelim c) hx
  have hQScases : QS = [] ∧ Q = [] ∨ QS = '?' :: Q := by
    by_cases h0 : Q = []
    · exact Or.inl ⟨by rw [hQSdef, if_pos h0], h0⟩
    · exact Or.inr (by rw [hQSdef, if_neg h0])
  cases hBcase : B with
  | nil =>
    have hPall : ∀ x ∈ P, (fun c => !netlocDelim c) x = true := by
      intro x hx
      rw [← hAB, hBcase, List.append_nil] at hx
      exact hAall x hx
    have hfrnil : splitFragment ([] : Str) = ([], []) := rfl
    have hqnil : splitQuery ([] : Str) = ([], []) := rfl
    rcases hQScases with ⟨hQS0, hQ0⟩ | hQS1
    · have htake : (P ++ QS).takeWhile (fun c => !netlocDelim c) = P := by
        rw [hQS0, List.append_nil]
        exact takeWhile_eq_self_of_all hPall
      have hdrop : (P ++ QS).dropWhile (fun c => !netlocDelim c) = [] := by
        rw [hQS0, List.append_nil]
        exact dropWhile_eq_nil_of_all hPall
      have hsN : splitNetloc ('/' :: '/' :: (P ++ QS)) = (P, []) := by
        unfold splitNetloc
        rw [if_pos hstart]
        have hdrop2 : ('/' :: '/' :: (P ++ QS)).drop 2 = P ++ QS := rfl
        simp only [hdrop2]
        rw [htake, hdrop]
      have hsplitOut : urlsplit (normalize_url u) = ⟨S', P, [], [], []⟩ := by
        rw [urlsplit_fields (normalize_url u), hsan, hstep2]
        simp only [hsN, hfrnil, hqnil]
      have hpathOut : (urlparse (normalize_url u)).path = [] := by
        rw [urlparse_path_eq_pathRaw ?hside]
        · rw [hsplitOut]
        case hside =>
          rw [show (urlsplit (normalize_url u)).pathRaw = [] by rw [hsplitOut]]
          simp [afterLastSlash]
      rw [normalize_url_explicit (normalize_url u)]
      rw [show (urlsplit (normalize_url u)).scheme = S' by rw [hsplitOut],
        show (urlsplit (normalize_url u)).netloc = P by rw [hsplitOut],
        hpathOut,
        show (urlsplit (normalize_url u)).query = [] by rw [hsplitOut]]
      rw [if_neg hS'ne]
      rw [normalize_url_explicit u, hN]
      rw [← hSPdef, ← hPdef, ← hQdef, ← hQSdef]
      simp only [List.nil_append]
      rw [hQS0]
      have hr0 : pyRstrip '/' ([] : Str) = [] := rfl
      rw [hr0]
      simp
    · have htake : (P ++ QS).takeWhile (fun c => !netlocDelim c) = P := by
        rw [hQS1, takeWhile_append_all hPall, takeWhile_cons_of_neg (by decide),
          List.append_nil]
      have hdrop : (P ++ QS).dropWhile (fun c => !netlocDelim c) = '?' :: Q := by
        rw [hQS1, dropWhile_append_all hPall, dropWhile_cons_of_neg (by decide)]
      have hsN : splitNetloc ('/' :: '/' :: (P ++ QS)) = (P, '?' :: Q) := by
        unfold splitNetloc
        rw [if_pos hstart]
        have hdrop2 : ('/' :: '/' :: (P ++ QS)).drop 2 = P ++ QS := rfl
        simp only [hdrop2]
        rw [htake, hdrop]
      have hfr : splitFragment ('?' :: Q) = ('?' :: Q, []) := by
        apply splitFragment_eq_none
        apply breakAtChar_eq_none_iff.mpr
        intro hx
        rcases List.mem_cons.mp hx with h | h
        · exact absurd h (by decide)
        · exact hQhash h
      have hq : splitQuery ('?' :: Q) = ([], Q) := by
        apply splitQuery_eq_some
        have : breakAtChar '?' ('?' :: Q) = some ([], Q) := by
          simp [breakAtChar]
        exact this
      have hsplitOut : urlsplit (normalize_url u) = ⟨S', P, [], Q, []⟩ := by
        rw [urlsplit_fields (normalize_url u), hsan, hstep2]
        simp only [hsN, hfr, hq]
      have hpathOut : (urlparse (normalize_url u)).path = [] := by
        rw [urlparse_path_eq_pathRaw ?hside]
        · rw [hsplitOut]
        case hside =>
          rw [show (urlsplit (normalize_url u)).pathRaw = [] by rw [hsplitOut]]
          simp [afterLastSlash]
      have hQne : Q ≠ [] := by
        intro h0
        rw [hQSdef, if_pos h0] at hQS1
        exact List.noConfusion hQS1
      rw [normalize_url_explicit (normalize_url u)]
      rw [show (urlsplit (normalize_url u)).scheme = S' by rw [hsplitOut],
        show (urlsplit (normalize_url u)).netloc = P by rw [hsplitOut],
        hpathOut,
        show (urlsplit (normalize_url u)).query = Q by rw [hsplitOut]]
      rw [if_neg hS'ne, if_neg hQne]
      rw [normalize_url_explicit u, hN]
      rw [← hSPdef, ← hPdef, ← hQdef, ← hQSdef]
      simp only [List.nil_append]
      rw [hQS1]
      have hr0 : pyRstrip '/' ([] : Str) = [] := rfl
      rw [hr0]
      simp
  | cons b t =>
    have hBP : ∀ x ∈ B, x ∈ P := by
      intro x hx
      rw [← hAB]
      exact List.mem_append_right _ hx
    have hb : b = '/' := by
      have hdw : P.dropWhile (fun c => !netlocDelim c) = b :: t := by
        rw [← hBdef, hBcase]
      have hpred := dropWhile_head_neg hdw
      have hbmem : b ∈ P := hBP b (by rw [hBcase]; exact List.mem_cons_self _ _)
      have hdel : netlocDelim b = true := by simpa using hpred
      have hdel' : (b = '/' ∨ b = '?') ∨ b = '#' := by simpa [netlocDelim] using hdel
      rcases hdel' with (h | h) | h
      · exact h
      · exact absurd (h ▸ hbmem) hPnoq
      · exact absurd (h ▸ hbmem) hPnoh
    subst hb
    have htake : (P ++ QS).takeWhile (fun c => !netlocDelim c) = A := by
      rw [← hAB, List.append_assoc, takeWhile_append_all hAall, hBcase]
      simp only [List.cons_append]
      rw [takeWhile_cons_of_neg (by decide), List.append_nil]
    have hdrop : (P ++ QS).dropWhile (fun c => !netlocDelim c) = B ++ QS := by
      rw [← hAB, List.append_assoc, dropWhile_append_all hAall, hBcase]
      simp only [List.cons_append]
      rw [dropWhile_cons_of_neg (by decide)]
    have hsN : splitNetloc ('/' :: '/' :: (P ++ QS)) = (A, B ++ QS) := by
      unfold splitNetloc
      rw [if_pos hstart]
      have hdrop2 : ('/' :: '/' :: (P ++ QS)).drop 2 = P ++ QS := rfl
      simp only [hdrop2]
      rw [htake, hdrop]
    have hfr : splitFragment (B ++ QS) = (B ++ QS, []) := by
      apply splitFragment_eq_none
      apply breakAtChar_eq_none_iff.mpr
      intro hx
      rcases List.mem_append.mp hx with hx | hx
      · exact hPnoh (hBP _ hx)
      · rcases hQScases with ⟨hQS0, -⟩ | hQS1
        · rw [hQS0] at hx
          simp at hx
        · rw [hQS1] at hx
          rcases List.mem_cons.mp hx with h | h
          · exact absurd h (by decide)
          · exact hQhash h
    have hBnoq : '?' ∉ B := fun hx => hPnoq (hBP _ hx)
    have hq : splitQuery (B ++ QS) = (B, Q) := by
      rcases hQScases with ⟨hQS0, hQ0⟩ | hQS1
      · rw [hQS0, List.append_nil, hQ0]
        exact splitQuery_eq_none (breakAtChar_eq_none_iff.mpr hBnoq)
      · rw [hQS1]
        exact splitQuery_eq_some (breakAtChar_append hBnoq)
    have hsplitOut : urlsplit (normalize_url u) = ⟨S', A, B, Q, []⟩ := by
      rw [urlsplit_fields (normalize_url u), hsan, hstep2]
      simp only [hsN, hfr, hq]
    have hafter : afterLastSlash B = afterLastSlash P := by
      rw [← hAB]
      exact (afterLastSlash_append (by rw [hBcase]; exact List.mem_cons_self _ _)).symm
    have hpathOut : (urlparse (normalize_url u)).path = B := by
      rw [urlparse_path_eq_pathRaw ?hside]
      · rw [hsplitOut]
      case hside =>
        rw [show (urlsplit (normalize_url u)).pathRaw = B by rw [hsplitOut], hafter]
        exact h1
    have hBr : pyRstrip '/' B = B := by
      apply pyRstrip_eq_self
      intro t' ht'
      have hcontra := pyRstrip_no_trailing '/' (urlparse u).path (A ++ t')
      apply hcontra
      show pyRstrip '/' (urlparse u).path = A ++ t' ++ ['/']
      rw [← hPdef, ← hAB, ht', List.append_assoc]
    rw [normalize_url_explicit (normalize_url u)]
    rw [show (urlsplit (normalize_url u)).scheme = S' by rw [hsplitOut],
      show (urlsplit (normalize_url u)).netloc = A by rw [hsplitOut],
      hpathOut,
      show (urlsplit (normalize_url u)).query = Q by rw [hsplitOut]]
    rw [if_neg hS'ne, hBr]
    rw [normalize_url_explicit u, hN]
    rw [← hSPdef, ← hPdef, ← hQdef, ← hQSdef]
    simp only [List.nil_append]
    rw [← hAB]

/-- Idempotence of `normalize_url`, under the proviso that the stripped path
has no `';'` in its final segment (otherwise re-parsing moves part of the
last segment into `params`; see the counterexample below). -/
theorem normalize_url_idem {u : Str}
    (h1 : ';' ∉ afterLastSlash (pyRstrip '/' (urlparse u).path)) :
    normalize_url (normalize_url u) = normalize_url u := by
  by_cases hN : (urlsplit u).netloc = []
  · exact normalize_idem_of_nil hN h1
  · exact normalize_idem_of_netloc hN h1

/-! Support lemmas for `canon_funder_url` -/

theorem mem_pyReplace_aux (pat : Str) :
    ∀ (n : Nat) (s : Str), s.length ≤ n → ∀ x, x ∈ pyReplace pat s → x ∈ s := by
  intro n
  induction n with
  | zero =>
    intro s hs x hx
    cases s with
    | nil => simp [pyReplace] at hx
    | cons a as => simp at hs
  | succ n ih =>
    intro s hs x hx
    cases s with
    | nil => simp [pyReplace] at hx
    | cons a as =>
      rw [pyReplace] at hx
      by_cases h : pat ≠ [] ∧ pyStartsWith pat (a :: as) = true
      · rw [dif_pos h] at hx
        have hlen : ((a :: as).drop pat.length).length ≤ n := by
          have hpos : 0 < pat.length := by
            cases hpat : pat with
            | nil => exact absurd hpat h.1
            | cons _ _ => simp
          simp only [List.length_drop, List.length_cons] at *
          omega
        exact List.mem_of_mem_drop (ih _ hlen x hx)
      · rw [dif_neg h] at hx
        rcases List.mem_cons.mp hx with rfl | hx2
        · exact List.mem_cons_self _ _
        · have hlen : as.length ≤ n := by
            simp only [List.length_cons] at hs
            omega
          exact List.mem_cons_of_mem _ (ih as hlen x hx2)

theorem mem_pyReplace {pat s : Str} {x : Char} (h : x ∈ pyReplace pat s) : x ∈ s :=
  mem_pyReplace_aux pat s.length s le_rfl x h

/-- Without an occurrence of the pattern, `replace` is the identity. -/
theorem pyReplace_eq_self_aux (pat : Str) :
    ∀ (n : Nat) (s : Str), s.length ≤ n → containsSub pat s = false → pyReplace pat s = s := by
  intro n
  induction n with
  | zero =>
    intro s hs hc
    cases s with
    | nil => simp [pyReplace]
    | cons a as => simp at hs
  | succ n ih =>
    intro s hs hc
    cases s with
    | nil => simp [pyReplace]
    | cons a as =>
      have hc2 : pyStartsWith pat (a :: as) = false ∧ containsSub pat as = false := by
        rw [containsSub] at hc
        exact ⟨by
          cases hps : pyStartsWith pat (a :: as) with
          | false => rfl
          | true => rw [hps] at hc; simp at hc, by
          cases hcs : containsSub pat as with
          | false => rfl
          | true => rw [hcs] at hc; simp at hc⟩
      rw [pyReplace]
      rw [dif_neg (by
        rintro ⟨-, hp⟩
        rw [hc2.1] at hp
        cases hp)]
      have hlen : as.length ≤ n := by
        simp only [List.length_cons] at hs
        omega
      rw [ih as hlen hc2.2]

theorem pyReplace_eq_self {pat s : Str} (h : containsSub pat s = false) :
    pyReplace pat s = s :=
  pyReplace_eq_self_aux pat s.length s le_rfl h

theorem pyReplace_nil (pat : Str) : pyReplace pat [] = [] := by simp [pyReplace]

theorem pyLower_eq_self_of {s : Str} (h : ∀ c ∈ s, Char.toLower c = c) :
    pyLower s = s := by
  simp only [pyLower]
  calc s.map Char.toLower = s.map id := List.map_congr_left h
  _ = s := List.map_id s

theorem mem_pyLower {s : Str} {x : Char} (h : x ∈ pyLower s) :
    ∃ y ∈ s, x = Char.toLower y := by
  obtain ⟨y, hy, rfl⟩ := List.mem_map.mp h
  exact ⟨y, hy, rfl⟩

theorem pyLower_chars_fixed {s : Str} {x : Char} (h : x ∈ pyLower s) :
    Char.toLower x = x := by
  obtain ⟨y, hy, rfl⟩ := mem_pyLower h
  exact charLower_idem y

theorem charLower_not_delim {c : Char} (h : netlocDelim c = false) :
    netlocDelim (Char.toLower c) = false := by
  rcases charLower_toNat_cases c with hc | ⟨h1, h2⟩
  · rw [hc]
    exact h
  · have hs : Char.toLower c ≠ '/' := fun he => absurd (he ▸ h1) (by decide)
    have hq : Char.toLower c ≠ '?' := fun he => absurd (he ▸ h1) (by decide)
    have hh : Char.toLower c ≠ '#' := fun he => absurd (he ▸ h1) (by decide)
    simp [netlocDelim, hs, hq, hh]

/-- The defaulted scheme of a normalized URL is a valid, lower-case,
non-empty, unsafe-free scheme. -/
theorem normalizedScheme_spec (w : Str) :
    validScheme (if (urlsplit w).scheme = [] then pyStr "https" else (urlsplit w).scheme) = true ∧
      pyLower (if (urlsplit w).scheme = [] then pyStr "https" else (urlsplit w).scheme) =
        (if (urlsplit w).scheme = [] then pyStr "https" else (urlsplit w).scheme) ∧
      (if (urlsplit w).scheme = [] then pyStr "https" else (urlsplit w).scheme) ≠ [] ∧
      ∀ x ∈ (if (urlsplit w).scheme = [] then pyStr "https" else (urlsplit w).scheme),
        isUnsafeUrlByte x = false := by
  by_cases h0 : (urlsplit w).scheme = []
  · rw [if_pos h0]
    exact ⟨by decide, by decide, by decide, by decide⟩
  · rw [if_neg h0]
    rcases urlsplit_scheme_spec w with h1 | ⟨hv, hl⟩
    · exact absurd h1 h0
    · refine ⟨hv, hl, h0, ?_⟩
      intro x hx
      obtain ⟨y, hy, rfl⟩ := mem_splitScheme_fst hx
      exact charLower_not_unsafe ( sanitize_not_unsafe hy)

/-- Parsing an explicitly rebuilt URL `scheme://netloc path ?query` recovers
its components (generic form of the re-parsing argument). -/
theorem urlsplit_rebuilt {S' N P Q : Str}
    (hval : validScheme S' = true) (hlow : pyLower S' = S')
    (hS'u : ∀ x ∈ S', isUnsafeUrlByte x = false)
    (hNdelim : ∀ x ∈ N, netlocDelim x = false)
    (hNu : ∀ x ∈ N, isUnsafeUrlByte x = false)
    (hPq : '?' ∉ P) (hPh : '#' ∉ P)
    (hPu : ∀ x ∈ P, isUnsafeUrlByte x = false)
    (hPhead : P = [] ∨ ∃ t, P = '/' :: t)
    (hQh : '#' ∉ Q) (hQu : ∀ x ∈ Q, isUnsafeUrlByte x = false) :
    urlsplit (S' ++ ':' :: '/' :: '/' ::
        (N ++ P ++ (if Q = [] then ([] : Str) else '?' :: Q))) =
      ⟨S', N, P, Q, []⟩ := by
  set QS : Str := if Q = [] then ([] : Str) else '?' :: Q with hQSdef
  have hScolon : ':' ∉ S' := validScheme_no_colon hval
  obtain ⟨c0, cs0, hc0, hc0alpha⟩ := validScheme_head_alpha hval
  have hsan : sanitizeUrl (S' ++ ':' :: '/' :: '/' :: (N ++ P ++ QS)) =
      S' ++ ':' :: '/' :: '/' :: (N ++ P ++ QS) := by
    apply sanitizeUrl_eq_self
    · intro x hx
      rcases List.mem_append.mp hx with hx | hx
      · exact hS'u x hx
      · simp only [List.mem_cons] at hx
        rcases hx with rfl | rfl | rfl | hx
        · decide
        · decide
        · decide
        · rcases List.mem_append.mp hx with hx2 | hx2
          · rcases List.mem_append.mp hx2 with hx3 | hx3
            · exact hNu x hx3
            · exact hPu x hx3
          · by_cases h0 : Q = []
            · rw [hQSdef, if_pos h0] at hx2
              simp at hx2
            · rw [hQSdef, if_neg h0] at hx2
              rcases List.mem_cons.mp hx2 with rfl | hx3
              · decide
              · exact hQu x hx3
    · intro x t hxt
      rw [hc0] at hxt
      simp only [List.cons_append, List.cons.injEq] at hxt
      rw [← hxt.1]
      have halpha := (char_isAlpha_iff c0).mp hc0alpha
      simp only [isC0OrSpace, decide_eq_false_iff_not, Nat.not_le]
      omega
  have hbk1 : breakAtChar ':' (S' ++ ':' :: '/' :: '/' :: (N ++ P ++ QS)) =
      some (S', '/' :: '/' :: (N ++ P ++ QS)) := breakAtChar_append hScolon
  have hstep2 : splitScheme (S' ++ ':' :: '/' :: '/' :: (N ++ P ++ QS)) =
      (S', '/' :: '/' :: (N ++ P ++ QS)) := by
    rw [splitScheme_eq_some hbk1, if_pos hval, hlow]
  have hNall : ∀ x ∈ N, (fun c => !netlocDelim c) x = true := by
    intro x hx
    simp [hNdelim x hx]
  have htail : (P ++ QS).takeWhile (fun c => !netlocDelim c) = [] ∧
      (P ++ QS).dropWhile (fun c => !netlocDelim c) = P ++ QS := by
    rcases hPhead with hPnil | ⟨t, ht⟩
    · rw [hPnil]
      simp only [List.nil_append]
      by_cases h0 : Q = []
      · rw [hQSdef, if_pos h0]
        simp
      · rw [hQSdef, if_neg h0]
        exact ⟨takeWhile_cons_of_neg (by decide), dropWhile_cons_of_neg (by decide)⟩
    · rw [ht]
      simp only [List.cons_append]
      exact ⟨takeWhile_cons_of_neg (by decide), dropWhile_cons_of_neg (by decide)⟩
  have hstart : pyStartsWith (pyStr "//") ('/' :: '/' :: (N ++ P ++ QS)) = true := by
    have h2 : pyStr "//" = ['/', '/'] := rfl
    rw [h2]
    simp [pyStartsWith]
  have hstep3 : splitNetloc ('/' :: '/' :: (N ++ P ++ QS)) = (N, P ++ QS) := by
    unfold splitNetloc
    rw [if_pos hstart]
    have hdrop2 : ('/' :: '/' :: (N ++ P ++ QS)).drop 2 = N ++ P ++ QS := rfl
    simp only [hdrop2]
    have ht' : (N ++ P ++ QS).takeWhile (fun c => !netlocDelim c) = N := by
      rw [List.append_assoc, takeWhile_append_all hNall, htail.1, List.append_nil]
    have hd' : (N ++ P ++ QS).dropWhile (fun c => !netlocDelim c) = P ++ QS := by
      rw [List.append_assoc, dropWhile_append_all hNall, htail.2]
    rw [ht', hd']
  have hnohash : '#' ∉ P ++ QS := by
    intro hx
    rcases List.mem_append.mp hx with hx | hx
    · exact hPh hx
    · by_cases h0 : Q = []
      · rw [hQSdef, if_pos h0] at hx
        simp at hx
      · rw [hQSdef, if_neg h0] at hx
        rcases List.mem_cons.mp hx with h | h
        · exact absurd h (by decide)
        · exact hQh h
  have hstep4 : splitFragment (P ++ QS) = (P ++ QS, []) :=
    splitFragment_eq_none (breakAtChar_eq_none_iff.mpr hnohash)
  have hstep5 : splitQuery (P ++ QS) = (P, Q) := by
    by_cases h0 : Q = []
    · rw [hQSdef, if_pos h0, List.append_nil]
      rw [splitQuery_eq_none (breakAtChar_eq_none_iff.mpr hPq), h0]
    · rw [hQSdef, if_neg h0]
      exact splitQuery_eq_some (breakAtChar_append hPq)
  rw [urlsplit_fields]
  rw [hsan, hstep2]
  simp only [hstep3, hstep4, hstep5]

/-- A rebuilt URL whose path is already stripped and params-free is a fixed
point of `normalize_url`. -/
theorem normalize_rebuilt {S' N P Q : Str}
    (hval : validScheme S' = true) (hlow : pyLower S' = S')
    (hS'u : ∀ x ∈ S', isUnsafeUrlByte x = false)
    (hNdelim : ∀ x ∈ N, netlocDelim x = false)
    (hNu : ∀ x ∈ N, isUnsafeUrlByte x = false)
    (hPq : '?' ∉ P) (hPh : '#' ∉ P)
    (hPu : ∀ x ∈ P, isUnsafeUrlByte x = false)
    (hPhead : P = [] ∨ ∃ t, P = '/' :: t)
    (hPr : pyRstrip '/' P = P)
    (hPparams : ';' ∉ afterLastSlash P)
    (hQh : '#' ∉ Q) (hQu : ∀ x ∈ Q, isUnsafeUrlByte x = false) :
    normalize_url (S' ++ ':' :: '/' :: '/' ::
        (N ++ P ++ (if Q = [] then ([] : Str) else '?' :: Q))) =
      S' ++ ':' :: '/' :: '/' ::
        (N ++ P ++ (if Q = [] then ([] : Str) else '?' :: Q)) := by
  have hsplit := urlsplit_rebuilt hval hlow hS'u hNdelim hNu hPq hPh hPu hPhead hQh hQu
  have hS'ne : S' ≠ [] := by
    obtain ⟨c0, cs0, hc0, -⟩ := validScheme_head_alpha hval
    rw [hc0]
    simp
  have hpath : (urlparse (S' ++ ':' :: '/' :: '/' ::
      (N ++ P ++ (if Q = [] then ([] : Str) else '?' :: Q)))).path = P := by
    rw [urlparse_path_eq_pathRaw ?hside]
    · rw [hsplit]
    case hside =>
      rw [show (urlsplit (S' ++ ':' :: '/' :: '/' ::
          (N ++ P ++ (if Q = [] then ([] : Str) else '?' :: Q)))).pathRaw = P by rw [hsplit]]
      exact hPparams
  rw [normalize_url_explicit]
  rw [show (urlsplit (S' ++ ':' :: '/' :: '/' ::
      (N ++ P ++ (if Q = [] then ([] : Str) else '?' :: Q)))).scheme = S' by rw [hsplit]]
  rw [show (urlsplit (S' ++ ':' :: '/' :: '/' ::
      (N ++ P ++ (if Q = [] then ([] : Str) else '?' :: Q)))).netloc = N by rw [hsplit]]
  rw [hpath]
  rw [show (urlsplit (S' ++ ':' :: '/' :: '/' ::
      (N ++ P ++ (if Q = [] then ([] : Str) else '?' :: Q)))).query = Q by rw [hsplit]]
  rw [if_neg hS'ne, hPr]

/-- Unfolded form of `canon_funder_url` on a non-empty URL. -/
theorem canon_eq_of_ne {u : Str} (hu : u ≠ []) :
    canon_funder_url u =
      if pyStartsWith (pyStr "register-of-charities.charitycommission")
          (pyReplace (pyStr "www.") (pyLower (urlparse (normalize_url u)).netloc)) = true then
        pyRstrip '/' (normalize_url u)
      else
        pyStr "https://" ++
          pyReplace (pyStr "www.") (pyLower (urlparse (normalize_url u)).netloc) := by
  unfold canon_funder_url
  rw [if_neg hu]

theorem urlsplit_https_domain {D : Str} (hDdelim : ∀ x ∈ D, netlocDelim x = false)
    (hDu : ∀ x ∈ D, isUnsafeUrlByte x = false) :
    urlsplit (pyStr "https://" ++ D) = ⟨pyStr "https", D, [], [], []⟩ := by
  have h := @urlsplit_rebuilt (pyStr "https") D ([] : Str) ([] : Str)
    (by decide) (by decide) (by decide) hDdelim hDu (by simp) (by simp) (by simp)
    (Or.inl rfl) (by simp) (by simp)
  have harg : pyStr "https" ++ ':' :: '/' :: '/' ::
      (D ++ [] ++ (if ([] : Str) = [] then ([] : Str) else '?' :: [])) =
      pyStr "https://" ++ D := by
    rw [if_pos rfl, List.append_nil, List.append_nil]
    rfl
  rw [harg] at h
  exact h

theorem normalize_https_domain {D : Str} (hDdelim : ∀ x ∈ D, netlocDelim x = false)
    (hDu : ∀ x ∈ D, isUnsafeUrlByte x = false) :
    normalize_url (pyStr "https://" ++ D) = pyStr "https://" ++ D := by
  have h := @normalize_rebuilt (pyStr "https") D ([] : Str) ([] : Str)
    (by decide) (by decide) (by decide) hDdelim hDu (by simp) (by simp) (by simp)
    (Or.inl rfl) rfl (by simp [afterLastSlash]) (by simp) (by simp)
  have harg : pyStr "https" ++ ':' :: '/' :: '/' ::
      (D ++ [] ++ (if ([] : Str) = [] then ([] : Str) else '?' :: [])) =
      pyStr "https://" ++ D := by
    rw [if_pos rfl, List.append_nil, List.append_nil]
    rfl
  rw [harg] at h
  exact h

/-- Slash-free strings are fixed by `pyRstrip '/'`. -/
theorem pyRstrip_eq_self_of_no_slash {s : Str} (h : '/' ∉ s) : pyRstrip '/' s = s := by
  apply pyRstrip_eq_self
  intro t ht
  apply h
  rw [ht]
  exact List.mem_append_right _ (List.mem_cons_self _ _)

/-- Idempotence of `canon_funder_url`, under three provisos that rule out the
three genuine non-idempotence corners: a `';'` in the last stripped path
segment (params re-splitting), a `"www."` substring surviving (or created by)
the `replace` call, and a query consisting only of slashes (eaten by the
final `rstrip`). -/
theorem canon_funder_url_idem {u : Str}
    (h1 : ';' ∉ afterLastSlash (pyRstrip '/' (urlparse u).path))
    (h1v : ';' ∉ afterLastSlash (pyRstrip '/' (urlparse (normalize_url u)).path))
    (h2 : containsSub (pyStr "www.")
      (pyReplace (pyStr "www.") (pyLower (urlparse (normalize_url u)).netloc)) = false)
    (h3 : pyRstrip '/' (urlsplit (normalize_url u)).query = [] →
      (urlsplit (normalize_url u)).query = []) :
    canon_funder_url (canon_funder_url u) = canon_funder_url u := by
  by_cases hu : u = []
  · subst hu
    simp [canon_funder_url]
  · have hcanon := canon_eq_of_ne hu
    set v : Str := normalize_url u with hvdef
    set D : Str := pyReplace (pyStr "www.") (pyLower (urlparse v).netloc) with hDdef
    have hveq : normalize_url v = v := normalize_url_idem h1
    have hDlowmem : ∀ x ∈ D, Char.toLower x = x := fun x hx =>
      pyLower_chars_fixed (mem_pyReplace hx)
    have hDlow : pyLower D = D := pyLower_eq_self_of hDlowmem
    have hDdelim : ∀ x ∈ D, netlocDelim x = false := by
      intro x hx
      obtain ⟨y, hy, rfl⟩ := mem_pyLower (mem_pyReplace hx)
      exact charLower_not_delim (urlsplit_netloc_delim v y hy)
    have hDu : ∀ x ∈ D, isUnsafeUrlByte x = false := by
      intro x hx
      obtain ⟨y, hy, rfl⟩ := mem_pyLower (mem_pyReplace hx)
      exact charLower_not_unsafe ( sanitize_not_unsafe (mem_urlsplit_netloc hy))
    have hrep : pyReplace (pyStr "www.") D = D := pyReplace_eq_self h2
    by_cases hreg : pyStartsWith (pyStr "register-of-charities.charitycommission") D = true
    · -- Charity Commission register branch
      rw [if_pos hreg] at hcanon
      have hDne : D ≠ [] := by
        obtain ⟨t, ht⟩ := pyStartsWith_iff.mp hreg
        rw [ht]
        simp [pyStr]
      have hN2ne : (urlsplit v).netloc ≠ [] := by
        intro h0
        apply hDne
        rw [hDdef, urlparse_netloc_eq, h0]
        exact pyReplace_nil _
      obtain ⟨hS2val, hS2low, hS2ne, hS2u⟩ := normalizedScheme_spec v
      set S2 : Str := if (urlsplit v).scheme = [] then pyStr "https" else (urlsplit v).scheme
        with hS2def
      set N2 : Str := (urlsplit v).netloc with hN2def
      set P2 : Str := pyRstrip '/' (urlparse v).path with hP2def
      set Q2 : Str := (urlsplit v).query with hQ2def
      set QS2 : Str := if Q2 = [] then ([] : Str) else '?' :: Q2 with hQS2def
      have hvshape : v = S2 ++ ':' :: '/' :: '/' :: (N2 ++ P2 ++ QS2) := by
        conv_lhs => rw [← hveq]
        exact normalize_url_explicit v
      have hP2r : pyRstrip '/' P2 = P2 := by
        rw [hP2def]
        exact pyRstrip_idem _ _
      have hN2r : pyRstrip '/' N2 = N2 := by
        apply pyRstrip_eq_self_of_no_slash
        intro hmem
        have := urlsplit_netloc_delim v '/' hmem
        simp [netlocDelim] at this
      have hP2q : '?' ∉ P2 := fun hx => urlparse_path_no_qmark v (mem_pyRstrip hx)
      have hP2h : '#' ∉ P2 := fun hx => urlparse_path_no_hash v (mem_pyRstrip hx)
      have hP2u : ∀ x ∈ P2, isUnsafeUrlByte x = false := fun x hx =>
        sanitize_not_unsafe (mem_urlsplit_pathRaw (mem_urlparse_path (mem_pyRstrip hx)))
      have hN2delim : ∀ x ∈ N2, netlocDelim x = false := urlsplit_netloc_delim v
      have hN2u : ∀ x ∈ N2, isUnsafeUrlByte x = false := fun x hx =>
        sanitize_not_unsafe (mem_urlsplit_netloc hx)
      have hP2head : P2 = [] ∨ ∃ t, P2 = '/' :: t := by
        rcases urlparse_path_head hN2ne with h0 | ⟨t, ht⟩
        · left
          rw [hP2def, h0]
          rfl
        · by_cases hP0 : P2 = []
          · exact Or.inl hP0
          · right
            rw [hP2def] at hP0 ⊢
            exact pyRstrip_head ht hP0
      have hv_ne : v ≠ [] := by
        rw [hvshape]
        obtain ⟨c2, cs2, hc2, -⟩ := validScheme_head_alpha hS2val
        rw [hc2]
        simp
      -- the register-branch canonical key of `v` is again `D`
      have hDv : pyReplace (pyStr "www.") (pyLower (urlparse (normalize_url v)).netloc) = D := by
        rw [hveq, ← hDdef]
      by_cases hQ2nil : Q2 = []
      · -- no query: the final rstrip is a no-op and `canon u = v`
        have hQS2nil : QS2 = [] := by rw [hQS2def, if_pos hQ2nil]
        have hcv : pyRstrip '/' v = v := by
          rw [hvshape, hQS2nil, List.append_nil]
          by_cases hP0 : P2 = []
          · rw [hP0, List.append_nil]
            have hsplit : S2 ++ ':' :: '/' :: '/' :: N2 = (S2 ++ [':', '/', '/']) ++ N2 := by
              simp
            rw [hsplit, pyRstrip_append (by rw [hN2r]; exact hN2ne), hN2r]
          · have hsplit : S2 ++ ':' :: '/' :: '/' :: (N2 ++ P2) =
                (S2 ++ [':', '/', '/'] ++ N2) ++ P2 := by
              simp
            rw [hsplit, pyRstrip_append (by rw [hP2r]; exact hP0), hP2r]
        rw [hcanon, hcv]
        rw [canon_eq_of_ne hv_ne, hDv, if_pos hreg, hveq, hcv]
      · -- query present: the final rstrip eats only trailing slashes of it
        have hQS2c : QS2 = '?' :: Q2 := by rw [hQS2def, if_neg hQ2nil]
        set Q2' : Str := pyRstrip '/' Q2 with hQ2Pdef
        have hQ2'ne : Q2' ≠ [] := by
          intro h0
          exact hQ2nil (h3 h0)
        have hQ2'r : pyRstrip '/' Q2' = Q2' := by
          rw [hQ2Pdef]
          exact pyRstrip_idem _ _
        have hQ2'h : '#' ∉ Q2' := fun hx => urlsplit_query_no_hash v (mem_pyRstrip hx)
        have hQ2'u : ∀ x ∈ Q2', isUnsafeUrlByte x = false := fun x hx =>
          sanitize_not_unsafe (mem_urlsplit_query (mem_pyRstrip hx))
        have hcform : pyRstrip '/' v = S2 ++ ':' :: '/' :: '/' :: (N2 ++ P2 ++ '?' :: Q2') := by
          rw [hvshape, hQS2c]
          have hsplit : S2 ++ ':' :: '/' :: '/' :: (N2 ++ P2 ++ '?' :: Q2) =
              (S2 ++ [':', '/', '/'] ++ (N2 ++ P2 ++ ['?'])) ++ Q2 := by
            simp
          rw [hsplit, pyRstrip_append (by rw [← hQ2Pdef]; exact hQ2'ne)]
          rw [← hQ2Pdef]
          simp
        have hsplit_c := @urlsplit_rebuilt S2 N2 P2 Q2'
          hS2val hS2low hS2u hN2delim hN2u hP2q hP2h hP2u hP2head hQ2'h hQ2'u
        rw [if_neg hQ2'ne] at hsplit_c
        have hnorm_c := @normalize_rebuilt S2 N2 P2 Q2'
          hS2val hS2low hS2u hN2delim hN2u hP2q hP2h hP2u hP2head hP2r
          (by rw [hP2def]; exact h1v) hQ2'h hQ2'u
        rw [if_neg hQ2'ne] at hnorm_c
        have hc_ne : S2 ++ ':' :: '/' :: '/' :: (N2 ++ P2 ++ '?' :: Q2') ≠ [] := by
          obtain ⟨c2, cs2, hc2, -⟩ := validScheme_head_alpha hS2val
          rw [hc2]
          simp
        rw [hcanon, hcform]
        rw [canon_eq_of_ne hc_ne, hnorm_c]
        have hnet_c : (urlparse (S2 ++ ':' :: '/' :: '/' :: (N2 ++ P2 ++ '?' :: Q2'))).netloc
            = N2 := by
          rw [urlparse_netloc_eq, hsplit_c]
        rw [hnet_c]
        have hDc : pyReplace (pyStr "www.") (pyLower N2) = D := by
          rw [hDdef, urlparse_netloc_eq, ← hN2def]
        rw [hDc, if_pos hreg]
        have hback : S2 ++ ':' :: '/' :: '/' :: (N2 ++ P2 ++ '?' :: Q2') =
            (S2 ++ [':', '/', '/'] ++ (N2 ++ P2 ++ ['?'])) ++ Q2' := by
          simp
        rw [hback, pyRstrip_append (by rw [hQ2'r]; exact hQ2'ne), hQ2'r]
    · -- default branch: collapse to `https://domain`
      rw [if_neg hreg] at hcanon
      have hc_ne : pyStr "https://" ++ D ≠ [] := by
        simp [pyStr]
      rw [hcanon]
      rw [canon_eq_of_ne hc_ne]
      rw [normalize_https_domain hDdelim hDu]
      have hnet : (urlparse (pyStr "https://" ++ D)).netloc = D := by
        rw [urlparse_netloc_eq, urlsplit_https_domain hDdelim hDu]
      rw [hnet, hDlow, hrep, if_neg hreg]

/-! ## Order-theoretic facts about the tuple sort of `prioritized_crawl` -/

theorem strLtB_irrefl (a : Str) : strLtB a a = false := by
  induction a with
  | nil => rfl
  | cons x xs ih => simp [strLtB, ih]

theorem strLtB_trans : ∀ a b c : Str, strLtB a b = true → strLtB b c = true →
    strLtB a c = true := by
  intro a
  induction a with
  | nil =>
    intro b c hab hbc
    cases b with
    | nil => exact hbc
    | cons y ys =>
      cases c with
      | nil => simp [strLtB] at hbc
      | cons z zs => rfl
  | cons x xs ih =>
    intro b c hab hbc
    cases b with
    | nil => simp [strLtB] at hab
    | cons y ys =>
      cases c with
      | nil => simp [strLtB] at hbc
      | cons z zs =>
        simp only [strLtB] at hab hbc ⊢
        rcases lt_trichotomy x y with h1 | h1 | h1
        · rcases lt_trichotomy y z with h2 | h2 | h2
          · rw [if_pos (lt_trans h1 h2)]
          · subst h2
            rw [if_pos h1]
          · rw [if_neg (lt_asymm h2), if_neg (ne_of_gt h2)] at hbc
            exact absurd hbc (by simp)
        · subst h1
          rw [if_neg (lt_irrefl x), if_pos rfl] at hab
          rcases lt_trichotomy x z with h2 | h2 | h2
          · rw [if_pos h2]
          · subst h2
            rw [if_neg (lt_irrefl x), if_pos rfl] at hbc ⊢
            exact ih ys zs hab hbc
          · rw [if_neg (lt_asymm h2), if_neg (ne_of_gt h2)] at hbc
            exact absurd hbc (by simp)
        · rw [if_neg (lt_asymm h1), if_neg (ne_of_gt h1)] at hab
          exact absurd hab (by simp)

theorem strLtB_tri : ∀ a b : Str, strLtB a b = true ∨ strLtB b a = true ∨ a = b := by
  intro a
  induction a with
  | nil =>
    intro b
    cases b with
    | nil => exact Or.inr (Or.inr rfl)
    | cons y ys => exact Or.inl rfl
  | cons x xs ih =>
    intro b
    cases b with
    | nil => exact Or.inr (Or.inl rfl)
    | cons y ys =>
      rcases lt_trichotomy x y with hxy | hxy | hxy
      · exact Or.inl (by simp [strLtB, hxy])
      · subst hxy
        rcases ih ys with h | h | h
        · exact Or.inl (by simp [strLtB, lt_irrefl, h])
        · exact Or.inr (Or.inl (by simp [strLtB, lt_irrefl, h]))
        · exact Or.inr (Or.inr (by rw [h]))
      · exact Or.inr (Or.inl (by simp [strLtB, hxy]))

theorem tupLtB_irrefl (a : ℚ × Str) : tupLtB a a = false := by
  simp [tupLtB, strLtB_irrefl]

theorem tupLtB_trans {a b c : ℚ × Str} (hab : tupLtB a b = true)
    (hbc : tupLtB b c = true) : tupLtB a c = true := by
  obtain ⟨a1, a2⟩ := a
  obtain ⟨b1, b2⟩ := b
  obtain ⟨c1, c2⟩ := c
  simp only [tupLtB] at hab hbc ⊢
  rcases lt_trichotomy a1 b1 with h1 | h1 | h1
  · rcases lt_trichotomy b1 c1 with h2 | h2 | h2
    · rw [if_pos (lt_trans h1 h2)]
    · subst h2
      rw [if_pos h1]
    · rw [if_neg (lt_asymm h2), if_neg (ne_of_gt h2)] at hbc
      exact absurd hbc (by simp)
  · subst h1
    rw [if_neg (lt_irrefl a1), if_pos rfl] at hab
    rcases lt_trichotomy a1 c1 with h2 | h2 | h2
    · rw [if_pos h2]
    · subst h2
      rw [if_neg (lt_irrefl a1), if_pos rfl] at hbc ⊢
      exact strLtB_trans _ _ _ hab hbc
    · rw [if_neg (lt_asymm h2), if_neg (ne_of_gt h2)] at hbc
      exact absurd hbc (by simp)
  · rw [if_neg (lt_asymm h1), if_neg (ne_of_gt h1)] at hab
    exact absurd hab (by simp)

theorem tupLtB_tri (a b : ℚ × Str) :
    tupLtB a b = true ∨ tupLtB b a = true ∨ a = b := by
  rcases lt_trichotomy a.1 b.1 with h | h | h
  · exact Or.inl (by simp [tupLtB, h])
  · rcases strLtB_tri a.2 b.2 with h2 | h2 | h2
    · exact Or.inl (by simp [tupLtB, h, lt_irrefl, h2])
    · exact Or.inr (Or.inl (by simp [tupLtB, h.symm, lt_irrefl, h2]))
    · exact Or.inr (Or.inr (Prod.ext h h2))
  · exact Or.inr (Or.inl (by simp [tupLtB, h]))

theorem tupLtB_asymm {a b : ℚ × Str} (h : tupLtB a b = true) : tupLtB b a = false := by
  cases h2 : tupLtB b a with
  | false => rfl
  | true =>
    have := tupLtB_trans h h2
    rw [tupLtB_irrefl] at this
    exact absurd this (by simp)

theorem tupGeB_trans (a b c : ℚ × Str) (hab : tupGeB a b = true)
    (hbc : tupGeB b c = true) : tupGeB a c = true := by
  simp only [tupGeB, Bool.not_eq_true'] at hab hbc ⊢
  cases hac : tupLtB a c with
  | false => rfl
  | true =>
    exfalso
    rcases tupLtB_tri b a with h | h | h
    · have hle := tupLtB_trans h hac
      rw [hbc] at hle
      exact absurd hle (by simp)
    · rw [hab] at h
      exact absurd h (by simp)
    · rw [h] at hbc
      rw [hbc] at hac
      exact absurd hac (by simp)

theorem tupGeB_total (a b : ℚ × Str) : (tupGeB a b || tupGeB b a) = true := by
  simp only [tupGeB, Bool.not_eq_true', Bool.or_eq_true, Bool.not_eq_true]
  rcases tupLtB_tri a b with h | h | h
  · exact Or.inr (tupLtB_asymm h)
  · exact Or.inl (tupLtB_asymm h)
  · exact Or.inl (by rw [h, tupLtB_irrefl])

theorem tupGeB_antisymm (a b : ℚ × Str) (hab : tupGeB a b = true)
    (hba : tupGeB b a = true) : a = b := by
  simp only [tupGeB, Bool.not_eq_true'] at hab hba
  rcases tupLtB_tri a b with h | h | h
  · rw [hab] at h
    exact absurd h (by simp)
  · rw [hba] at h
    exact absurd h (by simp)
  · exact h

instance tupGeB_isAntisymm : IsAntisymm (ℚ × Str) (fun a b => tupGeB a b = true) :=
  ⟨tupGeB_antisymm⟩

theorem pySortDesc_perm (l : List (ℚ × Str)) : (pySortDesc l).Perm l :=
  List.mergeSort_perm l tupGeB

theorem pySortDesc_sorted (l : List (ℚ × Str)) :
    (pySortDesc l).Pairwise (fun a b => tupGeB a b = true) :=
  List.sorted_mergeSort (fun a b c => tupGeB_trans a b c) tupGeB_total l

theorem pySortDesc_eq_of_perm {l1 l2 : List (ℚ × Str)} (h : l1.Perm l2) :
    pySortDesc l1 = pySortDesc l2 := by
  have h1 : List.Sorted (fun a b => tupGeB a b = true) (pySortDesc l1) :=
    pySortDesc_sorted l1
  have h2 : List.Sorted (fun a b => tupGeB a b = true) (pySortDesc l2) :=
    pySortDesc_sorted l2
  exact List.eq_of_perm_of_sorted
    (((pySortDesc_perm l1).trans h).trans (pySortDesc_perm l2).symm) h1 h2

theorem pySortDesc_pair {x y : ℚ × Str} (h : tupLtB x y = true) :
    pySortDesc [x, y] = [y, x] := by
  have hxy : x ≠ y := fun he => by
    rw [he, tupLtB_irrefl] at h
    exact absurd h (by simp)
  have hperm : (pySortDesc [x, y]).Perm [x, y] := pySortDesc_perm _
  have hsort := pySortDesc_sorted [x, y]
  have hlen : (pySortDesc [x, y]).length = 2 := by rw [hperm.length_eq]; rfl
  obtain ⟨o1, o2, hout⟩ : ∃ p q, pySortDesc [x, y] = [p, q] := by
    cases hl : pySortDesc [x, y] with
    | nil => rw [hl] at hlen; simp at hlen
    | cons p t =>
      cases t with
      | nil => rw [hl] at hlen; simp at hlen
      | cons q t2 =>
        cases t2 with
        | nil => exact ⟨p, q, rfl⟩
        | cons r t3 => rw [hl] at hlen; simp at hlen
  rw [hout] at hperm hsort
  have hge : tupGeB o1 o2 = true := (List.pairwise_cons.mp hsort).1 o2 (by simp)
  have hndxy : ([x, y] : List (ℚ × Str)).Nodup := by simp [hxy]
  have ho1 : o1 ∈ [x, y] := hperm.subset (by simp)
  have ho2 : o2 ∈ [x, y] := hperm.subset (by simp)
  rw [hout]
  rcases List.mem_pair.mp ho1 with h1 | h1
  · rcases List.mem_pair.mp ho2 with h2 | h2
    · exfalso
      rw [h1, h2] at hperm
      have hnd : ([x, x] : List (ℚ × Str)).Nodup := hperm.nodup_iff.mpr hndxy
      simp at hnd
    · exfalso
      rw [h1, h2] at hge
      rw [tupGeB, h] at hge
      exact absurd hge (by simp)
  · rcases List.mem_pair.mp ho2 with h2 | h2
    · rw [h1, h2]
    · exfalso
      rw [h1, h2] at hperm
      have hnd : ([y, y] : List (ℚ × Str)).Nodup := hperm.nodup_iff.mpr hndxy
      simp at hnd

/-! ## Dedup-gate bookkeeping lemmas -/

theorem prepareStep_counts (processed allowNorm : List Str)
    (acc : PrepareResult × List Str) (r : Str) :
    (prepareStep processed allowNorm acc r).1.to_scrape.length
      + (prepareStep processed allowNorm acc r).1.already_processed.length
      + (prepareStep processed allowNorm acc r).1.duplicates_in_payload.length
    = acc.1.to_scrape.length + acc.1.already_processed.length
      + acc.1.duplicates_in_payload.length + 1 := by
  simp only [prepareStep]
  split
  · simp
    omega
  · split
    · simp
      omega
    · simp
      omega

theorem prepare_counts (processed allowNorm : List Str) :
    ∀ (raw : List Str) (acc : PrepareResult × List Str),
      ((raw.foldl (prepareStep processed allowNorm) acc).1.to_scrape.length
        + (raw.foldl (prepareStep processed allowNorm) acc).1.already_processed.length
        + (raw.foldl (prepareStep processed allowNorm) acc).1.duplicates_in_payload.length)
      = acc.1.to_scrape.length + acc.1.already_processed.length
        + acc.1.duplicates_in_payload.length + raw.length := by
  intro raw
  induction raw with
  | nil => intro acc; simp
  | cons r rs ih =>
    intro acc
    rw [List.foldl_cons, ih, prepareStep_counts]
    simp
    omega

theorem prepareStep_keys (processed allowNorm : List Str)
    (acc : PrepareResult × List Str) (r k : Str) :
    (k ∈ (prepareStep processed allowNorm acc r).1.to_scrape ∨
      k ∈ ((prepareStep processed allowNorm acc r).1.already_processed ++
        (prepareStep processed allowNorm acc r).1.duplicates_in_payload).map normalize_url)
    ↔ (k ∈ acc.1.to_scrape ∨
        k ∈ (acc.1.already_processed ++ acc.1.duplicates_in_payload).map normalize_url ∨
        k = normalize_url r) := by
  simp only [prepareStep]
  split
  · simp only [List.map_append, List.mem_append, List.mem_map, List.mem_singleton]
    aesop
  · split
    · simp only [List.map_append, List.mem_append, List.mem_map, List.mem_singleton]
      aesop
    · simp only [List.map_append, List.mem_append, List.mem_map, List.mem_singleton]
      aesop

theorem prepare_keys (processed allowNorm : List Str) :
    ∀ (raw : List Str) (acc : PrepareResult × List Str) (k : Str),
      (k ∈ (raw.foldl (prepareStep processed allowNorm) acc).1.to_scrape ∨
        k ∈ ((raw.foldl (prepareStep processed allowNorm) acc).1.already_processed ++
          (raw.foldl (prepareStep processed allowNorm) acc).1.duplicates_in_payload).map
            normalize_url)
      ↔ (k ∈ acc.1.to_scrape ∨
          k ∈ (acc.1.already_processed ++ acc.1.duplicates_in_payload).map normalize_url ∨
          k ∈ raw.map normalize_url) := by
  intro raw
  induction raw with
  | nil => intro acc k; simp
  | cons r rs ih =>
    intro acc k
    rw [List.foldl_cons, ih (prepareStep processed allowNorm acc r) k]
    have hstep := prepareStep_keys processed allowNorm acc r k
    simp only [List.map_cons, List.mem_cons]
    tauto

/-! ## Worker-trace lemmas for the job tracker -/

theorem pyPercent_mono (total idx : Nat) :
    pyPercent idx total ≤ pyPercent (idx + 1) total :=
  Nat.div_le_div_right (Nat.mul_le_mul_right _ (Nat.le_succ idx))

theorem pyPercent_self {n : Nat} (h : 0 < n) : pyPercent n n = 100 := by
  unfold pyPercent
  rw [Nat.mul_div_cancel_left _ h]

theorem workerTrace_chain (proc : Str → FundRecord) (total : Nat) :
    ∀ (us : List Str) (idx : Nat) (st : JobState),
      st.progress_percent ≤ pyPercent idx total →
      List.Chain' (fun a b => a.progress_percent ≤ b.progress_percent)
        (st :: workerTrace proc total us idx st) := by
  intro us
  induction us with
  | nil =>
    intro idx st h
    simp only [workerTrace]
    exact List.chain'_pair.mpr (le_refl _)
  | cons u rest ih =>
    intro idx st h
    simp only [workerTrace]
    rw [List.chain'_cons]
    refine ⟨le_refl _, ?_⟩
    rw [List.chain'_cons]
    refine ⟨h, ?_⟩
    apply ih (idx + 1)
    show pyPercent idx total ≤ pyPercent (idx + 1) total
    exact pyPercent_mono total idx

theorem workerTrace_done (proc : Str → FundRecord) (NN : Nat) :
    ∀ (us : List Str) (idx : Nat) (st : JobState),
      st.done = false →
      st.results.length + us.length = NN →
      idx = st.results.length + 1 →
      (us = [] → st.progress_percent = 100) →
      ∀ x ∈ workerTrace proc NN us idx st, x.done = true →
        x.progress_percent = 100 ∧ x.results.length = NN := by
  intro us
  induction us with
  | nil =>
    intro idx st h0 hlen hidx hfin x hx hdone
    simp only [workerTrace, List.mem_singleton] at hx
    subst hx
    refine ⟨hfin rfl, ?_⟩
    simpa using hlen
  | cons u rest ih =>
    intro idx st h0 hlen hidx hfin x hx hdone
    simp only [workerTrace, List.mem_cons] at hx
    rcases hx with hx | hx | hx
    · have hxd : x.done = false := by rw [hx]; exact h0
      exact Bool.noConfusion (hxd.symm.trans hdone)
    · have hxd : x.done = false := by rw [hx]; exact h0
      exact Bool.noConfusion (hxd.symm.trans hdone)
    · refine ih (idx + 1) _ ?_ ?_ ?_ ?_ x hx hdone
      · exact h0
      · show (st.results ++ [proc u]).length + rest.length = NN
        simp only [List.length_append, List.length_cons, List.length_nil,
          List.length_cons] at hlen ⊢
        omega
      · show idx + 1 = (st.results ++ [proc u]).length + 1
        simp only [List.length_append, List.length_cons, List.length_nil]
        omega
      · intro hrest
        show pyPercent idx NN = 100
        subst hrest
        simp only [List.length_cons, List.length_nil] at hlen
        have hidxN : idx = NN := by omega
        subst hidxN
        exact pyPercent_self (by omega)

/-! ## Crawler-loop invariants -/

theorem containsSub_nil_left (s : Str) : containsSub [] s = true := by
  cases s <;> simp [containsSub, pyStartsWith]

theorem containsSub_nil_right {pat : Str} (h : pat ≠ []) : containsSub pat [] = false := by
  cases pat with
  | nil => exact absurd rfl h
  | cons p ps => simp [containsSub, pyStartsWith]

theorem processAnchor_visitedAt (ctx : CrawlCtx) (url : Str) (depth : Nat) (t s : Str)
    (st : DiscoverState) (a : Str × Str) :
    (processAnchor ctx url depth t s st a).visitedAt = st.visitedAt ∧
    (processAnchor ctx url depth t s st a).pages_visited = st.pages_visited := by
  simp only [processAnchor]
  split
  · exact ⟨rfl, rfl⟩
  · split
    · exact ⟨rfl, rfl⟩
    · split
      · exact ⟨rfl, rfl⟩
      · split
        · exact ⟨rfl, rfl⟩
        · exact ⟨rfl, rfl⟩

theorem processPage_visitedAt (ctx : CrawlCtx) (url : Str) (depth : Nat) (pg : PageInfo)
    (st : DiscoverState) :
    (processPage ctx url depth pg st).visitedAt = st.visitedAt ∧
    (processPage ctx url depth pg st).pages_visited = st.pages_visited := by
  have hgen : ∀ (l : List (Str × Str)) (st0 : DiscoverState),
      ((l.foldl (processAnchor ctx url depth pg.title (pg.firstParagraph.take 300)) st0).visitedAt
        = st0.visitedAt) ∧
      ((l.foldl (processAnchor ctx url depth pg.title (pg.firstParagraph.take 300))
        st0).pages_visited = st0.pages_visited) := by
    intro l
    induction l with
    | nil => intro st0; exact ⟨rfl, rfl⟩
    | cons a as ih =>
      intro st0
      rw [List.foldl_cons]
      have h1 := processAnchor_visitedAt ctx url depth pg.title (pg.firstParagraph.take 300) st0 a
      have h2 := ih (processAnchor ctx url depth pg.title (pg.firstParagraph.take 300) st0 a)
      exact ⟨h2.1.trans h1.1, h2.2.trans h1.2⟩
  exact hgen pg.anchors st

theorem discoverLoop_invariants (ctx : CrawlCtx) :
    ∀ (fuel : Nat) (st : DiscoverState),
      st.pages_visited ≤ ctx.max_pages →
      (∀ p ∈ st.visitedAt, p.2 ≤ ctx.discovery_depth) →
      ((st.visitedAt.map Prod.fst).Nodup) →
      ((discoverLoop ctx fuel st).pages_visited ≤ ctx.max_pages ∧
        (∀ p ∈ (discoverLoop ctx fuel st).visitedAt, p.2 ≤ ctx.discovery_depth) ∧
        ((discoverLoop ctx fuel st).visitedAt.map Prod.fst).Nodup) := by
  intro fuel
  induction fuel with
  | zero => intro st h1 h2 h3; exact ⟨h1, h2, h3⟩
  | succ n ih =>
    intro st h1 h2 h3
    cases hq : st.queue with
    | nil =>
      simp only [discoverLoop, hq]
      exact ⟨h1, h2, h3⟩
    | cons p rest =>
      obtain ⟨url, depth⟩ := p
      simp only [discoverLoop, hq]
      split
      · exact ih _ h1 h2 h3
      · rename_i hcond
        push_neg at hcond
        obtain ⟨hnv, hd, hp⟩ := hcond
        have h1' : st.pages_visited + 1 ≤ ctx.max_pages := hp
        have h2' : ∀ q ∈ st.visitedAt ++ [(url, depth)], q.2 ≤ ctx.discovery_depth := by
          intro q hq2
          rcases List.mem_append.mp hq2 with h | h
          · exact h2 q h
          · rw [List.mem_singleton.mp h]
            exact hd
        have h3' : ((st.visitedAt ++ [(url, depth)]).map Prod.fst).Nodup := by
          rw [List.map_append, List.nodup_append]
          refine ⟨h3, by simp, ?_⟩
          intro x hx hx2
          simp only [List.map_cons, List.map_nil, List.mem_singleton] at hx2
          subst hx2
          exact hnv hx
        cases hw : ctx.web url with
        | none => exact ih _ h1' h2' h3'
        | some pg =>
          have hpp := processPage_visitedAt ctx url depth pg
            { st with
              queue := rest
              visitedAt := st.visitedAt ++ [(url, depth)]
              pages_visited := st.pages_visited + 1 }
          refine ih _ ?_ ?_ ?_
          · rw [hpp.2]
            exact h1'
          · rw [hpp.1]
            exact h2'
          · rw [hpp.1]
            exact h3'

theorem upsertCandidate_keys (cands : List (Str × LinkMeta)) (key anchor title snippet : Str) :
    (upsertCandidate cands key anchor title snippet).map Prod.fst =
      (setdefaultMeta cands key).map Prod.fst := by
  unfold upsertCandidate
  rw [List.map_map]
  apply List.map_congr_left
  intro p hp
  simp only [Function.comp]
  split
  · rfl
  · rfl

theorem setdefaultMeta_keys (cands : List (Str × LinkMeta)) (key : Str) :
    ∀ k ∈ (setdefaultMeta cands key).map Prod.fst,
      k ∈ cands.map Prod.fst ∨ k = key := by
  intro k hk
  unfold setdefaultMeta at hk
  split at hk
  · exact Or.inl hk
  · rw [List.map_append] at hk
    rcases List.mem_append.mp hk with h | h
    · exact Or.inl h
    · simp only [List.map_cons, List.map_nil, List.mem_singleton] at h
      exact Or.inr h

theorem processAnchor_keys (ctx : CrawlCtx) (url : Str) (depth : Nat) (t s : Str)
    (st : DiscoverState) (a : Str × Str) :
    ∀ k ∈ (processAnchor ctx url depth t s st a).candidates.map Prod.fst,
      k ∈ st.candidates.map Prod.fst ∨
      ∃ href : Str, k = normalize_url href ∧
        containsSub ctx.base_domain (urlparse href).netloc = true := by
  intro k hk
  simp only [processAnchor] at hk
  split at hk
  · exact Or.inl hk
  · split at hk
    · exact Or.inl hk
    · rename_i hc1 hc2
      split at hk
      · exact Or.inl hk
      · split at hk
        · exact Or.inl hk
        · rw [upsertCandidate_keys] at hk
          rcases setdefaultMeta_keys _ _ _ hk with h | h
          · exact Or.inl h
          · refine Or.inr ⟨ctx.resolve url (((breakAtChar '#' a.1).map Prod.fst).getD a.1),
              h, ?_⟩
            simp only [Bool.not_eq_true', Bool.not_eq_false] at hc2
            exact hc2

theorem processPage_keys (ctx : CrawlCtx) (url : Str) (depth : Nat) (pg : PageInfo) :
    ∀ (st : DiscoverState) (k : Str),
      k ∈ (processPage ctx url depth pg st).candidates.map Prod.fst →
      k ∈ st.candidates.map Prod.fst ∨
      ∃ href : Str, k = normalize_url href ∧
        containsSub ctx.base_domain (urlparse href).netloc = true := by
  have hgen : ∀ (l : List (Str × Str)) (st0 : DiscoverState) (k : Str),
      k ∈ ((l.foldl (processAnchor ctx url depth pg.title (pg.firstParagraph.take 300))
        st0).candidates.map Prod.fst) →
      k ∈ st0.candidates.map Prod.fst ∨
      ∃ href : Str, k = normalize_url href ∧
        containsSub ctx.base_domain (urlparse href).netloc = true := by
    intro l
    induction l with
    | nil => intro st0 k hk; exact Or.inl hk
    | cons a as ih =>
      intro st0 k hk
      rw [List.foldl_cons] at hk
      rcases ih _ k hk with h | h
      · exact processAnchor_keys ctx url depth pg.title (pg.firstParagraph.take 300) st0 a k h
      · exact Or.inr h
  intro st k hk
  exact hgen pg.anchors st k hk

theorem discoverLoop_keys (ctx : CrawlCtx) :
    ∀ (fuel : Nat) (st : DiscoverState),
      (∀ k ∈ st.candidates.map Prod.fst,
        ∃ href : Str, k = normalize_url href ∧
          containsSub ctx.base_domain (urlparse href).netloc = true) →
      ∀ k ∈ (discoverLoop ctx fuel st).candidates.map Prod.fst,
        ∃ href : Str, k = normalize_url href ∧
          containsSub ctx.base_domain (urlparse href).netloc = true := by
  intro fuel
  induction fuel with
  | zero => intro st h; exact h
  | succ n ih =>
    intro st h
    cases hq : st.queue with
    | nil =>
      simp only [discoverLoop, hq]
      exact h
    | cons p rest =>
      obtain ⟨url, depth⟩ := p
      simp only [discoverLoop, hq]
      split
      · exact ih _ h
      · cases hw : ctx.web url with
        | none => exact ih _ h
        | some pg =>
          refine ih _ ?_
          intro k hk
          rcases processPage_keys ctx url depth pg _ k hk with h2 | h2
          · exact h k h2
          · exact h2

/-! ## Scorer arithmetic helpers -/

theorem score_anchor_append (url a : Str) (m : LinkMeta) (ha : hasKeyword a = true) :
    score_candidate url ⟨m.anchor_texts ++ [a], m.source_titles, m.source_snippets⟩
      = score_candidate url m + 25 := by
  simp only [score_candidate, List.filter_append]
  have hfa : List.filter hasKeyword [a] = [a] := by simp [ha]
  rw [hfa]
  simp only [List.length_append, List.length_cons, List.length_nil]
  push_cast
  ring

theorem score_url_keyword (u1 u2 : Str) (m : LinkMeta)
    (hlen : u1.length = u2.length)
    (hseg : pathSegmentCount u1 = pathSegmentCount u2)
    (hkw : urlKeywordCount u1 = urlKeywordCount u2 + 1) :
    score_candidate u1 m = score_candidate u2 m + 50 := by
  simp only [score_candidate, hkw, hlen, hseg]
  push_cast
  ring

theorem topLinks_length_le (cands : List (Str × LinkMeta)) :
    (topLinks cands).length ≤ MAX_PAGES := by
  unfold topLinks
  rw [List.length_map]
  exact List.length_take_le _ _

theorem tupGeB_eq_true_iff {a b : ℚ × Str} :
    tupGeB a b = true ↔ tupLtB a b = false := by
  simp [tupGeB]

/-! ## The claims -/

/-- Claim C3 (confirmed): every discovery run visits at most `max_pages`
pages, only at depths up to `discovery_depth`, never processes a canonical
key twice, and the prioritized fetcher text-fetches at most `MAX_PAGES`
pages. -/
theorem claim_C3 (web : Str → Option PageInfo) (text : Str → Option Str)
    (resolve : Str → Str → Str) (seed : Str) (d mp fuel : Nat) :
    (discover_links web resolve seed d mp fuel).pages_visited ≤ mp ∧
    (∀ p ∈ (discover_links web resolve seed d mp fuel).visitedAt, p.2 ≤ d) ∧
    ((discover_links web resolve seed d mp fuel).visitedAt.map Prod.fst).Nodup ∧
    (prioritized_crawl web text resolve seed fuel).pages_scraped ≤ MAX_PAGES := by
  have hmain := discoverLoop_invariants
    ⟨web, resolve,
      pyReplace (pyStr "www.") (urlparse (normalize_url seed)).netloc,
      initial_normalize_url seed, d, mp⟩
    fuel ⟨[(normalize_url seed, 0)], [], 0, []⟩ (Nat.zero_le _) (by simp) (by simp)
  refine ⟨hmain.1, hmain.2.1, hmain.2.2, ?_⟩
  exact le_trans (List.length_filterMap_le _ _) (topLinks_length_le _)

/-- Witness for C3 at a concrete crawl. -/
theorem claim_C3_witness :
    (discover_links (fun _ => none) (fun _ h => h) (pyStr "https://example.org")
      2 100 3).pages_visited ≤ 100 ∧
    (∀ p ∈ (discover_links (fun _ => none) (fun _ h => h) (pyStr "https://example.org")
      2 100 3).visitedAt, p.2 ≤ 2) ∧
    ((discover_links (fun _ => none) (fun _ h => h) (pyStr "https://example.org")
      2 100 3).visitedAt.map Prod.fst).Nodup ∧
    (prioritized_crawl (fun _ => none) (fun _ => none) (fun _ h => h)
      (pyStr "https://example.org") 3).pages_scraped ≤ MAX_PAGES :=
  claim_C3 (fun _ => none) (fun _ => none) (fun _ h => h) (pyStr "https://example.org") 2 100 3

/-- Claim C9 (code_bug): every `/scrape/batch` request evaluates
`payload.rescrape_urls`, an attribute `BatchScrapeRequest` does not declare,
so the handler raises `AttributeError` before any job is created — the
documented rejections and the job creation itself are unreachable. -/
theorem claim_C9 (payload : BatchScrapeRequest) (processed : List Str)
    (store : JobStoreState) :
    scrape_batch payload processed store
      = (Except.error (PyExc.attributeError (pyStr "rescrape_urls")), store) := by
  by_cases h : payload.fund_urls = [] <;>
    simp [scrape_batch, rescrapeUrlsAttr, h, Except.map]

/-- Claim C10 (confirmed): `process_single_fund` attempts exactly one sheet
append of its result record — also on a crawl exception — so the URL's
normalized key enters the processed set and later batches report the raw URL
as already processed, unless it is listed for rescrape. -/
theorem claim_C10 (crawl : Except Str (Str × Nat × List Str)) (llm : Str → LlmData)
    (url : Str) (nm : Option Str) (processed : List Str)
    (hp : normalize_url url ∈ processed) :
    (process_single_fund crawl llm url nm).sheet_appends
      = [(process_single_fund crawl llm url nm).record] ∧
    (_prepare_urls_for_scrape [url] processed []).already_processed = [url] ∧
    (_prepare_urls_for_scrape [url] processed []).to_scrape = [] ∧
    (_prepare_urls_for_scrape [url] processed [url]).to_scrape = [normalize_url url] := by
  refine ⟨rfl, ?_, ?_, ?_⟩
  · simp [_prepare_urls_for_scrape, prepareStep, hp]
  · simp [_prepare_urls_for_scrape, prepareStep, hp]
  · simp [_prepare_urls_for_scrape, prepareStep]

/-- Witness for C10: a crawl failure still yields exactly one append, and the
key then blocks a second scrape of the same URL. -/
theorem claim_C10_witness :
    (process_single_fund (Except.error (pyStr "boom")) (fun _ => ⟨[]⟩)
        (pyStr "https://example.org") none).sheet_appends
      = [(process_single_fund (Except.error (pyStr "boom")) (fun _ => ⟨[]⟩)
        (pyStr "https://example.org") none).record] ∧
    (_prepare_urls_for_scrape [pyStr "https://example.org"]
      [normalize_url (pyStr "https://example.org")] []).already_processed
      = [pyStr "https://example.org"] ∧
    (_prepare_urls_for_scrape [pyStr "https://example.org"]
      [normalize_url (pyStr "https://example.org")] []).to_scrape = [] ∧
    (_prepare_urls_for_scrape [pyStr "https://example.org"]
      [normalize_url (pyStr "https://example.org")]
      [pyStr "https://example.org"]).to_scrape
      = [normalize_url (pyStr "https://example.org")] :=
  claim_C10 (Except.error (pyStr "boom")) (fun _ => ⟨[]⟩) (pyStr "https://example.org")
    none [normalize_url (pyStr "https://example.org")] (List.mem_singleton.mpr rfl)

/-- Counterexample to C4 as written: `normalize_url` is not idempotent — a
`';'` in the last path segment together with a trailing slash makes the
second application split params where the first did not. -/
theorem claim_C4_counterexample :
    normalize_url (normalize_url (pyStr "http://x/a;b/")) ≠
      normalize_url (pyStr "http://x/a;b/") := by
  decide

/-- Claim C4 (corrected): both canonicalizers are idempotent away from three
corner cases — a `';'` in the last trailing-slash-stripped path segment (for
either application), a `"www."` occurrence surviving the `replace`, and a
query that `rstrip('/')` empties entirely. -/
theorem claim_C4 (u v : Str)
    (h1 : ';' ∉ afterLastSlash (pyRstrip '/' (urlparse u).path))
    (g1 : ';' ∉ afterLastSlash (pyRstrip '/' (urlparse v).path))
    (g2 : ';' ∉ afterLastSlash (pyRstrip '/' (urlparse (normalize_url v)).path))
    (g3 : containsSub (pyStr "www.")
      (pyReplace (pyStr "www.") (pyLower (urlparse (normalize_url v)).netloc)) = false)
    (g4 : pyRstrip '/' (urlsplit (normalize_url v)).query = [] →
      (urlsplit (normalize_url v)).query = []) :
    normalize_url (normalize_url u) = normalize_url u ∧
    canon_funder_url (canon_funder_url v) = canon_funder_url v :=
  ⟨normalize_url_idem h1, canon_funder_url_idem g1 g2 g3 g4⟩

/-- Witness for C4 at two concrete URLs satisfying the provisos. -/
theorem claim_C4_witness :
    normalize_url (normalize_url (pyStr "https://www.example.org/a/b?q=1"))
      = normalize_url (pyStr "https://www.example.org/a/b?q=1") ∧
    canon_funder_url (canon_funder_url (pyStr "https://example.org/a"))
      = canon_funder_url (pyStr "https://example.org/a") :=
  claim_C4 (pyStr "https://www.example.org/a/b?q=1") (pyStr "https://example.org/a")
    (by decide) (by decide) (by decide)
    (by rw [pyReplace_eq_self (by decide)]; decide) (by decide)

/-- Counterexample to C1 as written: `to_scrape` holds the *normalized* URL,
not the raw one, so with B = "https://b.org/y/" the gate does not return
`to_process == [B]`. -/
theorem claim_C1_counterexample :
    (_prepare_urls_for_scrape
        [pyStr "https://a.org/x", pyStr "https://a.org/x", pyStr "https://b.org/y/"]
        [normalize_url (pyStr "https://a.org/x")] []).to_scrape
      = [normalize_url (pyStr "https://b.org/y/")] ∧
    normalize_url (pyStr "https://b.org/y/") ≠ pyStr "https://b.org/y/" ∧
    (_prepare_urls_for_scrape
        [pyStr "https://a.org/x", pyStr "https://a.org/x", pyStr "https://b.org/y/"]
        [normalize_url (pyStr "https://a.org/x")] []).already_processed
      = [pyStr "https://a.org/x"] ∧
    (_prepare_urls_for_scrape
        [pyStr "https://a.org/x", pyStr "https://a.org/x", pyStr "https://b.org/y/"]
        [normalize_url (pyStr "https://a.org/x")] []).duplicates_in_payload
      = [pyStr "https://a.org/x"] := by
  refine ⟨?_, by decide, ?_, ?_⟩ <;> decide

/-- Claim C1 (corrected): the gate assigns each raw URL to exactly one list,
the normalized keys of the three lists cover exactly the distinct normalized
keys of the input, and on `[A, A, B]` with A's key already processed the gate
returns `to_scrape == [normalize(B)]` (the normalized URL, not the raw B),
`already_processed == [A]`, `duplicates_in_payload == [A]`. -/
theorem claim_C1 (raw_urls processed allow : List Str) (A B : Str) (P2 : List Str)
    (hA : normalize_url A ∈ P2) (hB : normalize_url B ∉ P2)
    (hAB : normalize_url A ≠ normalize_url B) :
    ((_prepare_urls_for_scrape raw_urls processed allow).to_scrape.length
      + (_prepare_urls_for_scrape raw_urls processed allow).already_processed.length
      + (_prepare_urls_for_scrape raw_urls processed allow).duplicates_in_payload.length
      = raw_urls.length) ∧
    (∀ k, (k ∈ (_prepare_urls_for_scrape raw_urls processed allow).to_scrape ∨
        k ∈ ((_prepare_urls_for_scrape raw_urls processed allow).already_processed ++
          (_prepare_urls_for_scrape raw_urls processed allow).duplicates_in_payload).map
            normalize_url)
      ↔ k ∈ raw_urls.map normalize_url) ∧
    (_prepare_urls_for_scrape [A, A, B] P2 []).to_scrape = [normalize_url B] ∧
    (_prepare_urls_for_scrape [A, A, B] P2 []).already_processed = [A] ∧
    (_prepare_urls_for_scrape [A, A, B] P2 []).duplicates_in_payload = [A] := by
  refine ⟨?_, ?_, ?_, ?_, ?_⟩
  · have h1 := prepare_counts processed (allow.map normalize_url) raw_urls
      (⟨⟨[], [], [], []⟩, []⟩ : PrepareResult × List Str)
    simpa [_prepare_urls_for_scrape] using h1
  · intro k
    have h2 := prepare_keys processed (allow.map normalize_url) raw_urls
      (⟨⟨[], [], [], []⟩, []⟩ : PrepareResult × List Str) k
    simpa [_prepare_urls_for_scrape] using h2
  · simp [_prepare_urls_for_scrape, prepareStep, hA, hB, Ne.symm hAB]
  · simp [_prepare_urls_for_scrape, prepareStep, hA, hB, Ne.symm hAB]
  · simp [_prepare_urls_for_scrape, prepareStep, hA, hB, Ne.symm hAB]

/-- Witness for C1 at the concrete batch of the claim's scenario. -/
theorem claim_C1_witness :
    ((_prepare_urls_for_scrape
        [pyStr "https://a.org/x", pyStr "https://a.org/x", pyStr "https://b.org/y/"]
        [normalize_url (pyStr "https://a.org/x")] []).to_scrape.length
      + (_prepare_urls_for_scrape
        [pyStr "https://a.org/x", pyStr "https://a.org/x", pyStr "https://b.org/y/"]
        [normalize_url (pyStr "https://a.org/x")] []).already_processed.length
      + (_prepare_urls_for_scrape
        [pyStr "https://a.org/x", pyStr "https://a.org/x", pyStr "https://b.org/y/"]
        [normalize_url (pyStr "https://a.org/x")] []).duplicates_in_payload.length
      = ([pyStr "https://a.org/x", pyStr "https://a.org/x",
          pyStr "https://b.org/y/"] : List Str).length) ∧
    (∀ k, (k ∈ (_prepare_urls_for_scrape
        [pyStr "https://a.org/x", pyStr "https://a.org/x", pyStr "https://b.org/y/"]
        [normalize_url (pyStr "https://a.org/x")] []).to_scrape ∨
        k ∈ ((_prepare_urls_for_scrape
          [pyStr "https://a.org/x", pyStr "https://a.org/x", pyStr "https://b.org/y/"]
          [normalize_url (pyStr "https://a.org/x")] []).already_processed ++
          (_prepare_urls_for_scrape
          [pyStr "https://a.org/x", pyStr "https://a.org/x", pyStr "https://b.org/y/"]
          [normalize_url (pyStr "https://a.org/x")] []).duplicates_in_payload).map
            normalize_url)
      ↔ k ∈ ([pyStr "https://a.org/x", pyStr "https://a.org/x",
          pyStr "https://b.org/y/"] : List Str).map normalize_url) ∧
    (_prepare_urls_for_scrape
        [pyStr "https://a.org/x", pyStr "https://a.org/x", pyStr "https://b.org/y/"]
        [normalize_url (pyStr "https://a.org/x")] []).to_scrape
      = [normalize_url (pyStr "https://b.org/y/")] ∧
    (_prepare_urls_for_scrape
        [pyStr "https://a.org/x", pyStr "https://a.org/x", pyStr "https://b.org/y/"]
        [normalize_url (pyStr "https://a.org/x")] []).already_processed
      = [pyStr "https://a.org/x"] ∧
    (_prepare_urls_for_scrape
        [pyStr "https://a.org/x", pyStr "https://a.org/x", pyStr "https://b.org/y/"]
        [normalize_url (pyStr "https://a.org/x")] []).duplicates_in_payload
      = [pyStr "https://a.org/x"] :=
  claim_C1 [pyStr "https://a.org/x", pyStr "https://a.org/x", pyStr "https://b.org/y/"]
    [normalize_url (pyStr "https://a.org/x")] []
    (pyStr "https://a.org/x") (pyStr "https://b.org/y/")
    [normalize_url (pyStr "https://a.org/x")]
    (List.mem_singleton.mpr rfl) (by decide) (by decide)

/-- Counterexample to C2 as written: the worker writes percent 100 before the
separate final write of `done`, so a poll can observe percent 100 with done
still false — "reaches 100 exactly when done" fails. -/
theorem claim_C2_counterexample :
    ((start_background_scrape (fun _ => ⟨[], [], [], [], 0, 0⟩) [pyStr "u"]).get? 2).map
        (fun st => (st.done, st.progress_percent)) = some (false, 100) := by
  decide

/-- Claim C2 (corrected): for a non-empty URL list the trace starts at
percent 0 with done false, percent never decreases along the trace, and every
done state has percent 100 with `completed_urls = total_urls`; percent 100
does *not* imply done (see the counterexample). -/
theorem claim_C2 (proc : Str → FundRecord) (urls : List Str) (hne : urls ≠ []) :
    (start_background_scrape proc urls).head? = some ⟨false, 0, [], []⟩ ∧
    List.Chain' (fun a b : JobState => a.progress_percent ≤ b.progress_percent)
      (start_background_scrape proc urls) ∧
    ∀ st ∈ start_background_scrape proc urls, st.done = true →
      st.progress_percent = 100 ∧
      (jobSnapshot urls st).completed_urls = (jobSnapshot urls st).total_urls := by
  have hN : max urls.length 1 = urls.length :=
    Nat.max_eq_left (List.length_pos.mpr hne)
  refine ⟨rfl, ?_, ?_⟩
  · simp only [start_background_scrape]
    exact workerTrace_chain proc (max urls.length 1) urls 1 ⟨false, 0, [], []⟩
      (Nat.zero_le _)
  · simp only [start_background_scrape]
    intro st hst hdone
    rcases List.mem_cons.mp hst with h | h
    · rw [h] at hdone
      exact absurd hdone (by simp)
    · have hd := workerTrace_done proc (max urls.length 1) urls 1 ⟨false, 0, [], []⟩
        rfl (by simpa using hN.symm) rfl (fun h0 => absurd h0 hne) st h hdone
      refine ⟨hd.1, ?_⟩
      show st.results.length = urls.length
      rw [hd.2, hN]

/-- Witness for C2 at a concrete one-URL job. -/
theorem claim_C2_witness :
    (start_background_scrape (fun _ => ⟨[], [], [], [], 0, 0⟩) [pyStr "u"]).head?
      = some ⟨false, 0, [], []⟩ ∧
    List.Chain' (fun a b : JobState => a.progress_percent ≤ b.progress_percent)
      (start_background_scrape (fun _ => ⟨[], [], [], [], 0, 0⟩) [pyStr "u"]) ∧
    ∀ st ∈ start_background_scrape (fun _ => ⟨[], [], [], [], 0, 0⟩) [pyStr "u"],
      st.done = true →
      st.progress_percent = 100 ∧
      (jobSnapshot [pyStr "u"] st).completed_urls = (jobSnapshot [pyStr "u"] st).total_urls :=
  claim_C2 (fun _ => ⟨[], [], [], [], 0, 0⟩) [pyStr "u"] (by decide)

/-- Counterexample to C5 as written: one anchor text containing two distinct
keywords raises the score by 25, not by 25 per keyword. -/
theorem claim_C5_counterexample :
    score_candidate (pyStr "https://x.org/p")
        ⟨([] : List Str) ++ [pyStr "grant fund"], [], []⟩
      = score_candidate (pyStr "https://x.org/p") ⟨[], [], []⟩ + 25 ∧
    (KEYWORDS.filter (fun kw => containsSub kw (pyLower (pyStr "grant fund")))).length
      = 2 := by
  constructor
  · exact score_anchor_append (pyStr "https://x.org/p") (pyStr "grant fund")
      ⟨[], [], []⟩ (by decide)
  · decide

/-- Claim C5 (corrected): the scorer adds 25 per keyword-matching *anchor
string* (regardless of how many keywords it contains): a new matching anchor
raises the score by exactly 25, and with equal URL length and path depth one
additional URL keyword is worth exactly 50. -/
theorem claim_C5 (url u1 u2 a : Str) (m : LinkMeta)
    (ha : hasKeyword a = true)
    (hlen : u1.length = u2.length)
    (hseg : pathSegmentCount u1 = pathSegmentCount u2)
    (hkw : urlKeywordCount u1 = urlKeywordCount u2 + 1) :
    score_candidate url ⟨m.anchor_texts ++ [a], m.source_titles, m.source_snippets⟩
      = score_candidate url m + 25 ∧
    score_candidate u1 m = score_candidate u2 m + 50 :=
  ⟨score_anchor_append url a m ha, score_url_keyword u1 u2 m hlen hseg hkw⟩

/-- Witness for C5 at concrete URLs and a concrete anchor. -/
theorem claim_C5_witness :
    score_candidate (pyStr "https://x.org/p")
        ⟨emptyMeta.anchor_texts ++ [pyStr "apply now"], emptyMeta.source_titles,
          emptyMeta.source_snippets⟩
      = score_candidate (pyStr "https://x.org/p") emptyMeta + 25 ∧
    score_candidate (pyStr "https://x.org/grant") emptyMeta
      = score_candidate (pyStr "https://x.org/aaaaa") emptyMeta + 50 :=
  claim_C5 (pyStr "https://x.org/p") (pyStr "https://x.org/grant")
    (pyStr "https://x.org/aaaaa") (pyStr "apply now") emptyMeta
    (by decide) (by decide) (by decide) (by decide)

/-- Counterexample to C6 as written: two equal-score candidates are ordered
by descending URL (the tuple sort compares the url component), not by
insertion order — inserted as [aa, ab], ranked as [ab, aa]. -/
theorem claim_C6_counterexample :
    topLinks [(pyStr "https://x.org/aa", emptyMeta), (pyStr "https://x.org/ab", emptyMeta)]
      = [pyStr "https://x.org/ab", pyStr "https://x.org/aa"] ∧
    score_candidate (pyStr "https://x.org/aa") emptyMeta
      = score_candidate (pyStr "https://x.org/ab") emptyMeta := by
  have h1 : urlKeywordCount (pyStr "https://x.org/aa")
      = urlKeywordCount (pyStr "https://x.org/ab") := by decide
  have h2 : pathSegmentCount (pyStr "https://x.org/aa")
      = pathSegmentCount (pyStr "https://x.org/ab") := by decide
  have h3 : (pyStr "https://x.org/aa").length = (pyStr "https://x.org/ab").length := by
    decide
  have hsc : score_candidate (pyStr "https://x.org/aa") emptyMeta
      = score_candidate (pyStr "https://x.org/ab") emptyMeta := by
    simp only [score_candidate, h1, h2, h3]
  refine ⟨?_, hsc⟩
  have hlt : tupLtB
      (score_candidate (pyStr "https://x.org/aa") emptyMeta, pyStr "https://x.org/aa")
      (score_candidate (pyStr "https://x.org/ab") emptyMeta, pyStr "https://x.org/ab")
      = true := by
    simp only [tupLtB, hsc]
    rw [if_neg (lt_irrefl _)]
    decide
  have hpair := pySortDesc_pair hlt
  show ((pySortDesc (scoredOf
      [(pyStr "https://x.org/aa", emptyMeta),
       (pyStr "https://x.org/ab", emptyMeta)])).take MAX_PAGES).map Prod.snd = _
  rw [show scoredOf [(pyStr "https://x.org/aa", emptyMeta),
        (pyStr "https://x.org/ab", emptyMeta)]
      = [(score_candidate (pyStr "https://x.org/aa") emptyMeta, pyStr "https://x.org/aa"),
         (score_candidate (pyStr "https://x.org/ab") emptyMeta, pyStr "https://x.org/ab")]
      from rfl]
  rw [hpair]
  rfl

/-- Claim C6 (corrected): scoring is a pure function of (url, metadata), and
the ranking depends only on the multiset of scored candidates — the sorted
list is descending under the tuple order, with ties broken by descending URL
rather than insertion order. -/
theorem claim_C6 (c1 c2 : List (Str × LinkMeta))
    (hperm : (scoredOf c1).Perm (scoredOf c2)) :
    topLinks c1 = topLinks c2 ∧
    (pySortDesc (scoredOf c1)).Pairwise (fun a b => tupLtB a b = false) := by
  constructor
  · unfold topLinks
    rw [pySortDesc_eq_of_perm hperm]
  · exact (pySortDesc_sorted (scoredOf c1)).imp (fun hab => tupGeB_eq_true_iff.mp hab)

/-- Witness for C6: swapping the insertion order of two candidates leaves the
ranking unchanged. -/
theorem claim_C6_witness :
    topLinks [(pyStr "https://x.org/aa", emptyMeta), (pyStr "https://x.org/ab", emptyMeta)]
      = topLinks [(pyStr "https://x.org/ab", emptyMeta),
        (pyStr "https://x.org/aa", emptyMeta)] ∧
    (pySortDesc (scoredOf [(pyStr "https://x.org/aa", emptyMeta),
      (pyStr "https://x.org/ab", emptyMeta)])).Pairwise
        (fun a b => tupLtB a b = false) :=
  claim_C6 [(pyStr "https://x.org/aa", emptyMeta), (pyStr "https://x.org/ab", emptyMeta)]
    [(pyStr "https://x.org/ab", emptyMeta), (pyStr "https://x.org/aa", emptyMeta)]
    (List.Perm.swap _ _ _)

/-- Counterexample to C7 as written: the gate keys by `normalize_url`, not by
the strict canon — two same-domain different-path URLs share a canonical
`canon` key yet are both scraped, and nothing lands in
`duplicates_in_payload`. -/
theorem claim_C7_counterexample :
    (_prepare_urls_for_scrape
        [pyStr "https://example.org/a", pyStr "https://example.org/b"] [] []).to_scrape
      = [normalize_url (pyStr "https://example.org/a"),
         normalize_url (pyStr "https://example.org/b")] ∧
    (_prepare_urls_for_scrape
        [pyStr "https://example.org/a", pyStr "https://example.org/b"] []
        []).duplicates_in_payload = [] ∧
    canon_funder_url (pyStr "https://example.org/a")
      = canon_funder_url (pyStr "https://example.org/b") ∧
    normalize_url (pyStr "https://example.org/a")
      ≠ normalize_url (pyStr "https://example.org/b") := by
  refine ⟨by decide, by decide, ?_, by decide⟩
  rw [canon_eq_of_ne (by decide), canon_eq_of_ne (by decide),
    pyReplace_eq_self (by decide), pyReplace_eq_self (by decide)]
  decide

/-- Claim C7 (corrected): `canon_funder_url` does collapse non-register URLs
of one domain to the same key, but the gate compares `normalize_url` keys, so
same-domain different-path URLs are both scraped and none is reported as a
payload duplicate. -/
theorem claim_C7 (u v A B : Str) (processed : List Str)
    (hu0 : u ≠ []) (hv0 : v ≠ [])
    (hnet : (urlparse (normalize_url u)).netloc = (urlparse (normalize_url v)).netloc)
    (hreg : pyStartsWith (pyStr "register-of-charities.charitycommission")
      (pyReplace (pyStr "www.") (pyLower (urlparse (normalize_url u)).netloc)) = false)
    (hAB : normalize_url A ≠ normalize_url B)
    (hA : normalize_url A ∉ processed) (hB : normalize_url B ∉ processed) :
    canon_funder_url u = canon_funder_url v ∧
    (_prepare_urls_for_scrape [A, B] processed []).to_scrape
      = [normalize_url A, normalize_url B] ∧
    (_prepare_urls_for_scrape [A, B] processed []).duplicates_in_payload = [] := by
  refine ⟨?_, ?_, ?_⟩
  · rw [canon_eq_of_ne hu0, canon_eq_of_ne hv0, hnet]
    rw [hnet] at hreg
    rw [if_neg (by simp [hreg]), if_neg (by simp [hreg])]
  · simp [_prepare_urls_for_scrape, prepareStep, hA, hB, Ne.symm hAB]
  · simp [_prepare_urls_for_scrape, prepareStep, hA, hB, Ne.symm hAB]

/-- Witness for C7 at two concrete same-domain URLs. -/
theorem claim_C7_witness :
    canon_funder_url (pyStr "https://example.org/a")
      = canon_funder_url (pyStr "https://example.org/b") ∧
    (_prepare_urls_for_scrape
        [pyStr "https://example.org/a", pyStr "https://example.org/b"] [] []).to_scrape
      = [normalize_url (pyStr "https://example.org/a"),
         normalize_url (pyStr "https://example.org/b")] ∧
    (_prepare_urls_for_scrape
        [pyStr "https://example.org/a", pyStr "https://example.org/b"] []
        []).duplicates_in_payload = [] :=
  claim_C7 (pyStr "https://example.org/a") (pyStr "https://example.org/b")
    (pyStr "https://example.org/a") (pyStr "https://example.org/b") []
    (by decide) (by decide) (by decide)
    (by rw [pyReplace_eq_self (by decide)]; decide)
    (by decide) (by decide) (by decide)

/-- Counterexample to C8 as written: the domain check is substring
containment, so an anchor on `example.org.evil.com` — a different host —
enters the candidate map of a crawl seeded at `example.org`. -/
theorem claim_C8_counterexample :
    (discover_links
        (fun u => if u = pyStr "https://example.org"
          then some ⟨[], [], [(pyStr "https://example.org.evil.com/page", pyStr "grants")]⟩
          else none)
        (fun _ h => h) (pyStr "https://example.org") 2 100 5).candidates.map Prod.fst
      = [pyStr "https://example.org.evil.com/page"] ∧
    (urlparse (pyStr "https://example.org.evil.com/page")).netloc
      ≠ (urlparse (normalize_url (pyStr "https://example.org"))).netloc := by
  constructor
  · simp only [discover_links]
    rw [show pyReplace (pyStr "www.")
        (urlparse (normalize_url (pyStr "https://example.org"))).netloc
      = pyStr "example.org" from by rw [pyReplace_eq_self (by decide)]; decide]
    decide
  · decide

/-- Claim C8 (corrected): what discovery guarantees is only that every
candidate key's netloc *contains* the seed's www-stripped base domain as a
substring; hosts of other domains that embed it are not excluded. -/
theorem claim_C8 (web : Str → Option PageInfo) (resolve : Str → Str → Str)
    (seed : Str) (d mp fuel : Nat) (k : Str)
    (hk : k ∈ (discover_links web resolve seed d mp fuel).candidates.map Prod.fst) :
    containsSub (pyReplace (pyStr "www.") (urlparse (normalize_url seed)).netloc)
      (urlparse k).netloc = true := by
  simp only [discover_links] at hk
  have h := discoverLoop_keys _ fuel _ (by simp) k hk
  obtain ⟨href, hk2, hcont⟩ := h
  subst hk2
  have hcont2 : containsSub
      (pyReplace (pyStr "www.") (urlparse (normalize_url seed)).netloc)
      (urlparse href).netloc = true := hcont
  by_cases hb : pyReplace (pyStr "www.") (urlparse (normalize_url seed)).netloc = []
  · rw [hb]
    exact containsSub_nil_left _
  · have hnet : (urlsplit href).netloc ≠ [] := by
      intro h0
      rw [urlparse_netloc_eq href, h0, containsSub_nil_right hb] at hcont2
      exact Bool.noConfusion hcont2
    have hpres := urlsplit_normalize_of_netloc hnet
    rw [urlparse_netloc_eq (normalize_url href), hpres]
    show containsSub (pyReplace (pyStr "www.") (urlparse (normalize_url seed)).netloc)
      (urlsplit href).netloc = true
    rw [← urlparse_netloc_eq href]
    exact hcont2

/-- Witness for C8 at a concrete crawl with one same-domain anchor. -/
theorem claim_C8_witness :
    containsSub (pyReplace (pyStr "www.")
        (urlparse (normalize_url (pyStr "https://example.org"))).netloc)
      (urlparse (pyStr "https://example.org/grants")).netloc = true :=
  claim_C8
    (fun u => if u = pyStr "https://example.org"
      then some ⟨[], [], [(pyStr "https://example.org/grants", pyStr "apply")]⟩ else none)
    (fun _ h => h) (pyStr "https://example.org") 2 100 3
    (pyStr "https://example.org/grants")
    (by
      simp only [discover_links]
      rw [show pyReplace (pyStr "www.")
          (urlparse (normalize_url (pyStr "https://example.org"))).netloc
        = pyStr "example.org" from by rw [pyReplace_eq_self (by decide)]; decide]
      decide)
